import Mathlib

/-!
Verification of the 1-D transient heat-conduction solver (CPU backend and the
GPU chunk-building strategies) of the heat_transfer repository.

The Rust source computes with `f32`; this development is a shallow embedding of
the same arithmetic over the exact rationals `ℚ` (the standard exact-arithmetic
idealization: every literal appearing in the claims is exactly representable,
and every branch condition modelled here is decided identically by the `f32`
code at the inputs used in the theorems below).  Floating-point `ln`/`ceil` in
the sub-stepping controller is modelled by the exact ceiling base-2 logarithm
`Int.clog 2`.  Partial operations of the source (out-of-range indexing, which
panics in Rust) are modelled by total functions returning a default; every
theorem below only exercises them in range, and each such spot is documented at
the definition.
-/

/-- Constant `MAX_DELTA_TEMPERATURE` from `one_dimensional/cpu.rs`: the maximum
temperature difference between neighboring cells before the time step is
reduced. -/
def MAX_DELTA_TEMPERATURE : ℚ := 10

/-- Constant `MAX_TIME_SUBDIVISIONS` from `one_dimensional/cpu.rs`. -/
def MAX_TIME_SUBDIVISIONS : ℕ := 4

/-- Constant `SIGMA` from `one_dimensional/cpu.rs`: the Stefan-Boltzmann constant as the
source writes it, `0.0000000567` (exactly `567e-10`). -/
def SIGMA : ℚ := 567 / 10000000000

/-- Constant `ADIABATIC_H` from `one_dimensional/cpu.rs`: sentinel value of `h`
selecting the adiabatic boundary branch.  `-100000.0` is exactly representable
in `f32`, so equality tests against it in the source are exact. -/
def ADIABATIC_H : ℚ := -100000

/-- Constant `CONST_TEMP_H` from `one_dimensional/cpu.rs`: sentinel value of `h`
selecting the constant-temperature boundary branch (`-100001.0`, also exactly
representable in `f32`). -/
def CONST_TEMP_H : ℚ := -100001

/-- One interpolation breakpoint of a `Ramp`: `(temperature, value)`. -/
abbrev RampPair := ℚ × ℚ

/-- Embedding of `Ramp::calc` from `fds/ramp.rs`, embedded structurally: the source first
returns the first value when `temperature <= self.0[0].0`, then walks the list
looking for the first breakpoint with `temperature < t1` and interpolates
against its predecessor, and otherwise returns the last value.  `rampCalcAux
prev rest t` is the loop with `prev` the breakpoint at index `i - 1`.
The source indexes `self.0[0]` unconditionally and panics on an empty table
(the `Ramp` invariant is at least one pair); the model returns `0` there. -/
def rampCalcAux (prev : RampPair) : List RampPair → ℚ → ℚ
  | [], _ => prev.2
  | p :: rest, t =>
    if t < p.1 then prev.2 + (p.2 - prev.2) / (p.1 - prev.1) * (t - prev.1)
    else rampCalcAux p rest t

/-- Embedding of `Ramp::calc` (`fds/ramp.rs` lines 11-23).  Named `rampCalc` because `calc`
is a Lean keyword. -/
def rampCalc (ramp : List RampPair) (t : ℚ) : ℚ :=
  match ramp with
  | [] => 0
  | p :: rest => if t ≤ p.1 then p.2 else rampCalcAux p rest t

/-- Structure `Material` from `fds/material.rs`: thermal properties, with the two
temperature-dependent properties as `Ramp` tables. -/
structure Material where
  specific_heat : List RampPair
  conductivity : List RampPair
  density : ℚ
  emissivity : ℚ
  deriving DecidableEq

instance : Inhabited Material := ⟨⟨[], [], 0, 0⟩⟩

/-- Structure `WallCell` from `one_dimensional/mod.rs`: thickness, material index and
current temperature of one discretized slice. -/
structure WallCell where
  size : ℚ
  material : ℕ
  temperature : ℚ
  deriving DecidableEq

instance : Inhabited WallCell := ⟨⟨0, 0, 0⟩⟩

/-- Type `WallElement` from `one_dimensional/mod.rs`: an ordered column of cells. -/
abbrev WallElement := List WallCell

/-- Cell lookup `wall_element[i]`.  The source panics out of range; the model
returns the default cell, and every theorem below stays in range. -/
def cellAt (we : WallElement) (i : ℕ) : WallCell := we.getD i default

/-- Material lookup `materials[i as usize]`.  The source panics on an invalid
material index; the model returns the default material, and the theorems
constrain the materials actually reached through this lookup. -/
def matAt (ms : List Material) (i : ℕ) : Material := ms.getD i default

/-- Function `repeats` from `one_dimensional/cpu.rs` lines 120-128: the sub-stepping
count.  The source computes `2_usize.pow((eta.ln() / 2.0f32.ln()).ceil() as
u32).clamp(1, MAX_TIME_SUBDIVISIONS)` with `eta = x / 10`; the exact value of
`(eta.ln() / 2f32.ln()).ceil()` is the ceiling base-2 logarithm, i.e.
`Int.clog 2 eta`, and the saturating cast `as u32` is `Int.toNat` (the branch
guarantees `eta ≥ 1` so the ceiling is already non-negative).  `usize` is
64 bits on the targets in use and `2_usize.pow` overflows for exponents of 64
or more: in release builds it wraps modulo `2^64` (to 0, since the base
is 2) — modelled here by `% 2 ^ 64` — while debug builds panic there.
Rust's `clamp(1, 4)` is `min (max · 1) 4`. -/
def repeats (max_delta_temperature : ℚ) : ℕ :=
  if max_delta_temperature < MAX_DELTA_TEMPERATURE then 1
  else
    min
      (max (2 ^ (Int.clog 2 (max_delta_temperature / MAX_DELTA_TEMPERATURE)).toNat % 2 ^ 64) 1)
      MAX_TIME_SUBDIVISIONS

/-- The structural signature of a wall element: per-cell `(size, material)`,
the data `gpu_m2.rs` accumulates in `cell_sizes` / `cell_materials`.  The
source's split test `cell_sizes.len() != wall_element.len() || zip ... any
(c.size != s || c.material != m)` is exactly inequality of this signature. -/
def sig (we : WallElement) : List (ℚ × ℕ) := we.map fun c => (c.size, c.material)

/-- The grouping loop of `ShaderChunk::build` (`gpu_m2.rs` lines 135-187):
`s` is the signature accumulated in `cell_sizes` / `cell_materials` (the
signature of the element that started the current run), `acc` the elements of
the current run in reverse; a new run starts whenever the next element's
signature differs. -/
def m2RunsAux (s : List (ℚ × ℕ)) (acc : List WallElement) :
    List WallElement → List (List WallElement)
  | [] => [acc.reverse]
  | w :: rest =>
    if sig w = s then m2RunsAux s (w :: acc) rest
    else acc.reverse :: m2RunsAux (sig w) [w] rest

/-- The element grouping computed by strategy M2's `ShaderChunk::build`
(`gpu_m2.rs` lines 135-187): maximal runs of consecutive structurally
identical elements.  The build is seeded from `wall_elements[0]` (the source
panics on an empty list; the model returns no groups).  Note that this build
never reads `get_max_element_per_chunk()`. -/
def shaderChunkBuildM2 : List WallElement → List (List WallElement)
  | [] => []
  | w :: rest => m2RunsAux (sig w) [w] rest

/-- Rust's `slice::chunks(k)`: consecutive groups of `k` elements (the last
possibly shorter).  Rust panics when `k = 0`; the model returns no chunks and
the theorems assume `0 < k`. -/
def chunksOf (k : ℕ) (l : List WallElement) : List (List WallElement) :=
  if k = 0 ∨ l = [] then []
  else l.take k :: chunksOf k (l.drop k)
termination_by l.length
decreasing_by
  rename_i h
  push_neg at h
  have hk : 0 < k := Nat.pos_of_ne_zero h.1
  have hl : 0 < l.length := List.length_pos.mpr h.2
  simpa using Nat.sub_lt hl hk

/-- The element partition of strategy M1's `Chunk::build` (`gpu_m1.rs` lines
113-169): `wall_elements ... .chunks_mut(get_max_element_per_chunk())`, one
chunk per slice. -/
def chunkBuildM1 (maxPerChunk : ℕ) (walls : List WallElement) :
    List (List WallElement) :=
  chunksOf maxPerChunk walls

/-- The element partition of strategy M3's `Chunk::build` (`gpu_m3.rs` lines
121-171): also `chunks_mut(get_max_element_per_chunk())` (the per-element
padding to `max_cell_count` does not change the grouping). -/
def chunkBuildM3 (maxPerChunk : ℕ) (walls : List WallElement) :
    List (List WallElement) :=
  chunksOf maxPerChunk walls

/-- The loop body state of `max_delta_temperature` (`cpu.rs` lines 71-116).
The source's loop updates only `x_c`, `before` and `f1`; in particular `t_c`
and `k_c` keep the values taken from cell 1 for the whole loop (embedded
faithfully). -/
def maxDeltaAux (ms : List Material) (delta_time tc kc : ℚ) :
    ℚ → ℚ → ℚ → ℚ → List WallCell → ℚ
  | _, _, _, acc, [] => acc
  | xc, before, f1, acc, ca :: rest =>
    let ta := ca.temperature
    let xa := ca.size
    let mata := matAt ms ca.material
    let ka := rampCalc mata.conductivity ta
    let cca := rampCalc mata.specific_heat ta
    let rhoa := mata.density
    let kma := (kc + ka) / 2
    let after := kma * (ta - tc) / ((xa + xc) / 2)
    let acc' := max (abs (f1 * (after - before) / xc)) acc
    maxDeltaAux ms delta_time tc kc xa after (delta_time * (rhoa * cca)) acc' rest

/-- Function `max_delta_temperature` (`cpu.rs` lines 71-116): the largest instantaneous
per-cell temperature-flux imbalance.  The source indexes cells 0 and 1 before
the loop and panics on fewer than two cells; the model returns 0 there. -/
def max_delta_temperature (we : WallElement) (ms : List Material)
    (delta_time : ℚ) : ℚ :=
  match we with
  | cb :: cc :: rest =>
    let tb := cb.temperature
    let xb := cb.size
    let kb := rampCalc (matAt ms cb.material).conductivity tb
    let tc := cc.temperature
    let xc := cc.size
    let matc := matAt ms cc.material
    let kc := rampCalc matc.conductivity tc
    let ccc := rampCalc matc.specific_heat tc
    let rhoc := matc.density
    let kmb := (kc + kb) / 2
    let before := kmb * (tc - tb) / ((xc + xb) / 2)
    let f1 := delta_time * (rhoc * ccc)
    maxDeltaAux ms delta_time tc kc xc before f1 0 rest
  | _ => 0

/-- Function `calc_rfac2_and_qdxk_no_radiation` (`cpu.rs` lines 132-188), returning
`(rfac2_f, qdxk_f, rfac2_b, qdxk_b)`.  The `powf(3.0)` / `powf(4.0)` of the
source are modelled as exact rational powers (they agree for the non-negative
average boundary temperatures the convective branch is used with). -/
def calc_rfac2_and_qdxk_no_radiation (we : WallElement) (ms : List Material)
    (wall_heat_transfer_coefficient wall_q_in : ℚ × ℚ) : ℚ × ℚ × ℚ × ℚ :=
  let h_f := wall_heat_transfer_coefficient.1
  let front :=
    if h_f = ADIABATIC_H then ((1 : ℚ), (0 : ℚ))
    else if h_f = CONST_TEMP_H then (-1, 2 * wall_q_in.1)
    else
      let q2_f := wall_q_in.1
      let temperature_f := ((cellAt we 0).temperature + (cellAt we 1).temperature) / 2
      let material_f := matAt ms (cellAt we 0).material
      let dx_f := (cellAt we 0).size
      let emission_rfac_f := 2 * material_f.emissivity * SIGMA * temperature_f ^ 3
      let emission_qdxk_f := 3 * material_f.emissivity * SIGMA * temperature_f ^ 4
      let rfac_f := 1 / 2 * h_f + emission_rfac_f
      let k_f := rampCalc material_f.conductivity temperature_f
      ((k_f / dx_f - rfac_f) / (k_f / dx_f + rfac_f),
        (q2_f + emission_qdxk_f) / (k_f / dx_f + rfac_f))
  let h_b := wall_heat_transfer_coefficient.2
  let back :=
    if h_b = ADIABATIC_H then ((1 : ℚ), (0 : ℚ))
    else if h_b = CONST_TEMP_H then (-1, 2 * wall_q_in.2)
    else
      let q2_b := wall_q_in.2
      let len := we.length
      let temperature_b :=
        ((cellAt we (len - 1)).temperature + (cellAt we (len - 2)).temperature) / 2
      let material_b := matAt ms (cellAt we (len - 1)).material
      let dx_b := (cellAt we (len - 1)).size
      let emission_rfac_b := 2 * material_b.emissivity * SIGMA * temperature_b ^ 3
      let emission_qdxk_b := 3 * material_b.emissivity * SIGMA * temperature_b ^ 4
      let rfac_b := 1 / 2 * h_b + emission_rfac_b
      let k_b := rampCalc material_b.conductivity temperature_b
      ((k_b / dx_b - rfac_b) / (k_b / dx_b + rfac_b),
        (q2_b + emission_qdxk_b) / (k_b / dx_b + rfac_b))
  (front.1, front.2, back.1, back.2)

/-- One row `[b, d, a, c]` of the solve matrix (`cpu.rs` comment at line 264:
`0: b, 1: d, 2: a, 3: c`): sub-diagonal, diagonal, super-diagonal,
right-hand side. -/
structure Row where
  b : ℚ
  d : ℚ
  a : ℚ
  c : ℚ
  deriving DecidableEq

instance : Inhabited Row := ⟨⟨0, 0, 0, 0⟩⟩

/-- The loop of `populate_solve_matrix` (`cpu.rs` lines 216-245).  The carried
state is the current cell's data (`temperature_d`, its material, `dx_d`, `f1`)
together with the pending sub-diagonal data `b`, `c_b`; `rest` holds the cells
from index `i + 1` on.  The recomputation of `k_b` at the loop's end uses
`material_a` for both summands, exactly as the source does (`cpu.rs` lines
236-238). -/
def populateAux (ms : List Material) (delta_time : ℚ) (td : ℚ) (matd : Material)
    (dxd f1 b cb : ℚ) : List WallCell → List Row
  | [] => []
  | ca :: rest =>
    let ta := ca.temperature
    let mata := matAt ms ca.material
    let dxa := ca.size
    let ka := (rampCalc matd.conductivity td + rampCalc mata.conductivity ta) / 2
    let a := -delta_time * ka / (f1 * dxd * (dxd + dxa) / 2)
    let c_a := a * (ta - td)
    let d := 1 - a - b
    let c := td - c_a + cb
    let f1' := 2 * mata.density * rampCalc mata.specific_heat ta
    let kb' := (rampCalc mata.conductivity ta + rampCalc mata.conductivity td) / 2
    let b' := -delta_time * kb' / (f1' * dxa * (dxa + dxd) / 2)
    let cb' := b' * (ta - td)
    ⟨b, d, a, c⟩ :: populateAux ms delta_time ta mata dxa f1' b' cb' rest

/-- Function `populate_solve_matrix` (`cpu.rs` lines 192-248): builds the `len - 2`
tridiagonal rows from cells 0 and 1 and the loop over cells 2 onward.  The
source indexes cells 0 and 1 unconditionally (panics on fewer than two cells);
the model returns no rows there. -/
def populate_solve_matrix (we : WallElement) (ms : List Material)
    (delta_time : ℚ) : List Row :=
  match we with
  | cb :: cd :: rest =>
    let temperature_d := cd.temperature
    let material_d := matAt ms cd.material
    let dx_d := cd.size
    let f1 := 2 * material_d.density * rampCalc material_d.specific_heat temperature_d
    let temperature_b := cb.temperature
    let material_b := matAt ms cb.material
    let dx_b := cb.size
    let k_b := (rampCalc material_d.conductivity temperature_d
      + rampCalc material_b.conductivity temperature_b) / 2
    let b := -delta_time * k_b / (f1 * dx_d * (dx_d + dx_b) / 2)
    let c_b := b * (temperature_d - temperature_b)
    populateAux ms delta_time temperature_d material_d dx_d f1 b c_b rest
  | _ => []

/-- The back-boundary fold of `solve_heat_transfer`: `matrix[n-1][3] -=
matrix[n-1][2] * qdxk_b` and `matrix[n-1][1] += matrix[n-1][2] * rfac2_b`,
applied to the last row. -/
def foldLast (rfac2_b qdxk_b : ℚ) : List Row → List Row
  | [] => []
  | [r] => [⟨r.b, r.d + r.a * rfac2_b, r.a, r.c - r.a * qdxk_b⟩]
  | r :: rest => r :: foldLast rfac2_b qdxk_b rest

/-- The boundary folding of `solve_heat_transfer` (`cpu.rs` lines 265-269):
`qdxk` scaled by the off-diagonal coefficient is subtracted from the first and
last right-hand sides, `rfac2` scaled the same way is added into the first and
last diagonals.  When there is a single row (`n = 1`) all four updates hit
row 0, exactly as in the source. -/
def foldBoundary (rfac2_f qdxk_f rfac2_b qdxk_b : ℚ) : List Row → List Row
  | [] => []
  | [r] =>
    [⟨r.b, r.d + r.b * rfac2_f + r.a * rfac2_b, r.a,
      r.c - r.b * qdxk_f - r.a * qdxk_b⟩]
  | r :: rest =>
    ⟨r.b, r.d + r.b * rfac2_f, r.a, r.c - r.b * qdxk_f⟩ :: foldLast rfac2_b qdxk_b rest

/-- The forward elimination of `solve_heat_transfer` (`cpu.rs` lines 271-275):
`r = b_i / d_{i-1}'`, `d_i -= r * a_{i-1}`, `c_i -= r * c_{i-1}'`, where the
previous row is the already-eliminated one.  `elimRun prev rest` returns the
eliminated rows in order, `prev` being the (already final) previous row. -/
def elimRun (prev : Row) : List Row → List Row
  | [] => [prev]
  | r :: rest =>
    let ratio := r.b / prev.d
    prev :: elimRun ⟨r.b, r.d - ratio * prev.a, r.a, r.c - ratio * prev.c⟩ rest

/-- The back-substitution of `solve_heat_transfer` (`cpu.rs` lines 277-280):
the last unknown is `c / d`, every other one `(c - a * x_next) / d`. -/
def backsub (rows : List Row) : List ℚ :=
  rows.foldr
    (fun r acc =>
      match acc with
      | [] => [r.c / r.d]
      | x :: _ => (r.c - r.a * x) / r.d :: acc)
    []

/-- The interior write-back of `solve_heat_transfer` (`cpu.rs` lines 282-284):
cell `i + 1` receives solution `i`; cells beyond the solutions are left
untouched. -/
def writeTemps : List WallCell → List ℚ → List WallCell
  | cs, [] => cs
  | [], _ :: _ => []
  | c :: cs, x :: xs => { c with temperature := x } :: writeTemps cs xs

/-- Setting the temperature of the last cell (`cpu.rs` line 286). -/
def setLastTemp (t : ℚ) : List WallCell → List WallCell
  | [] => []
  | [c] => [{ c with temperature := t }]
  | c :: rest => c :: setLastTemp t rest

/-- Function `solve_heat_transfer` (`cpu.rs` lines 252-287): populate the matrix, fold
the boundary closure into the first and last rows, run the Thomas forward
elimination and back-substitution, write the interior temperatures back, and
recompute the two boundary half-cell temperatures as `rfac2 * adjacent + qdxk`.
The source's `matrix[0]` / `matrix[n-1]` accesses panic for fewer than three
cells (empty matrix); the model returns the element unchanged there. -/
def solve_heat_transfer (we : WallElement) (ms : List Material)
    (rfac2_qdxk : ℚ × ℚ × ℚ × ℚ) (delta_time : ℚ) : WallElement :=
  let (rfac2_f, qdxk_f, rfac2_b, qdxk_b) := rfac2_qdxk
  match foldBoundary rfac2_f qdxk_f rfac2_b qdxk_b
      (populate_solve_matrix we ms delta_time) with
  | [] => we
  | r0 :: rrest =>
    let xs := backsub (elimRun r0 rrest)
    match we, xs with
    | c0 :: crest, x0 :: _ =>
      setLastTemp (xs.getLastD 0 * rfac2_b + qdxk_b)
        ({ c0 with temperature := x0 * rfac2_f + qdxk_f } :: writeTemps crest xs)
    | we', _ => we'

/-- The repetition loop of `heat_transfer` (`cpu.rs` lines 302-310): each
iteration recomputes the boundary closure from the current temperatures and
solves once with the subdivided time step. -/
def htIter (ms : List Material) (h q : ℚ × ℚ) (dt' : ℚ) :
    ℕ → WallElement → WallElement
  | 0, we => we
  | n + 1, we =>
    htIter ms h q dt' n
      (solve_heat_transfer we ms (calc_rfac2_and_qdxk_no_radiation we ms h q) dt')

/-- Function `heat_transfer` (`cpu.rs` lines 291-311): the atomic per-element,
per-timestep update with sub-stepping. -/
def heat_transfer (we : WallElement) (ms : List Material) (h q : ℚ × ℚ)
    (delta_time : ℚ) : WallElement :=
  let md := max_delta_temperature we ms delta_time
  let r := repeats md
  htIter ms h q (delta_time / (r : ℚ)) r we

/-- The surface-temperature pair written by `CPUSetupData::update` (`cpu.rs`
lines 58-62): front is the average of cells 0 and 1, back the average of cells
`len - 1` and `len - 2`, taken after the element's `heat_transfer` step. -/
def reportPair (we : WallElement) : ℚ × ℚ :=
  (((cellAt we 0).temperature + (cellAt we 1).temperature) / 2,
    ((cellAt we (we.length - 1)).temperature + (cellAt we (we.length - 2)).temperature) / 2)

/-- Embedding of `CPUSetupData::update` (`cpu.rs` lines 32-66).  The source zips the stored
elements with the output slice and the two input slices using `zip_eq`, which
panics on any length mismatch (modelled as `none`); otherwise it runs
`heat_transfer` on every element (the rayon parallel loop touches disjoint
state per element, so the sequential model is exact) and always returns
`Ok(())` (modelled as `some` of the new state and outputs).  The incoming
contents of `wall_temperature` are never read, only overwritten. -/
def update (ms : List Material) (walls : List WallElement) (delta_time : ℚ)
    (wall_heat_transfer_coefficients wall_q_in wall_temperature : List (ℚ × ℚ)) :
    Option (List WallElement × List (ℚ × ℚ)) :=
  if walls.length = wall_temperature.length ∧
      wall_heat_transfer_coefficients.length = wall_q_in.length ∧
      walls.length = wall_heat_transfer_coefficients.length then
    let newWalls := List.zipWith
      (fun w cq => heat_transfer w ms cq.1 cq.2 delta_time) walls
      (wall_heat_transfer_coefficients.zip wall_q_in)
    some (newWalls, newWalls.map reportPair)
  else none

/-- The tail of a tridiagonal system: `SolvesTail xp rows xs` states that the
rows (each relating the previous unknown `xp`, its own unknown and the next
one; the final row having no next unknown) are satisfied by the unknowns
`xs`. -/
def SolvesTail : ℚ → List Row → List ℚ → Prop
  | _, [], [] => True
  | xp, r :: rows, x :: xs =>
    (match xs with
      | [] => r.b * xp + r.d * x = r.c
      | x2 :: _ => r.b * xp + r.d * x + r.a * x2 = r.c) ∧
    SolvesTail x rows xs
  | _, _, _ => False

/-- Predicate `SolvesTridiag rows xs`: the unknowns `xs` satisfy the tridiagonal system
described by `rows`, whose first equation has no sub-diagonal term and whose
last has no super-diagonal term (the stored `b` of the first row and `a` of
the last row are dead after boundary folding). -/
def SolvesTridiag : List Row → List ℚ → Prop
  | [], [] => True
  | r :: rows, x :: xs =>
    (match xs with
      | [] => r.d * x = r.c
      | x2 :: _ => r.d * x + r.a * x2 = r.c) ∧
    SolvesTail x rows xs
  | _, _ => False

/-- The material-positivity facts the solver relies on at temperature `T`
(the data model's invariants: positive density and, at the temperatures in
play, positive specific heat and non-negative conductivity). -/
def GoodAt (T : ℚ) (m : Material) : Prop :=
  0 < m.density ∧ 0 < rampCalc m.specific_heat T ∧ 0 ≤ rampCalc m.conductivity T

/-- The single material of the §8 concrete scenario: density 7850,
specific heat 439.8 J/(kg·K), conductivity 53.3 W/(m·K), emissivity 0.79
(all constant ramps, constructed as `Ramp::from(f32)` does with breakpoint
temperature 20). -/
def steel : Material :=
  ⟨[(20, 2199 / 5)], [(20, 533 / 10)], 7850, 79 / 100⟩

/-- A simple constant material (density 1, specific heat 1/2, conductivity 1)
used for concrete counterexamples and witnesses. -/
def unitMat : Material :=
  ⟨[(20, 1 / 2)], [(20, 1)], 1, 0⟩

/-- A four-cell wall element, all cells of size 1, material 0, temperature
20. -/
def uniformWe4 : WallElement :=
  [⟨1, 0, 20⟩, ⟨1, 0, 20⟩, ⟨1, 0, 20⟩, ⟨1, 0, 20⟩]

/-- A three-cell wall element, all cells of size 1, material 0, temperature
20. -/
def uniformWe3 : WallElement :=
  [⟨1, 0, 20⟩, ⟨1, 0, 20⟩, ⟨1, 0, 20⟩]

/-- Shape of an interior row of the solve matrix at uniform temperature `T`:
non-positive off-diagonal coefficients, diagonal `1 - a - b`, right-hand side
`T`. -/
def RowOk (T : ℚ) (r : Row) : Prop :=
  r.a ≤ 0 ∧ r.b ≤ 0 ∧ r.d = 1 - r.a - r.b ∧ r.c = T

/-- Shape of the rows after the first one in the adiabatically folded system
at uniform temperature `T`: middle rows keep the `RowOk` shape, the last row
has had its `a` folded into the diagonal. -/
def MidsThenLast (T : ℚ) : List Row → Prop
  | [] => False
  | [r] => r.b ≤ 0 ∧ r.d = 1 - r.b ∧ r.c = T
  | r :: rest => (r.a ≤ 0 ∧ r.b ≤ 0 ∧ r.d = 1 - r.a - r.b ∧ r.c = T) ∧ MidsThenLast T rest

/-! ## Theorems -/

/-- Helper: the sub-stepping count is 1 up to the threshold (strictly below it
by the early return, exactly at it because `clog 2 1 = 0`). -/
theorem repeats_of_le_ten {x : ℚ} (hx : x ≤ 10) : repeats x = 1 := by
  rcases lt_or_eq_of_le hx with h | h
  · simp [repeats, MAX_DELTA_TEMPERATURE, h]
  · subst h
    norm_num [repeats, MAX_DELTA_TEMPERATURE, MAX_TIME_SUBDIVISIONS]

/-- Helper: between the threshold (exclusive) and twice the threshold
(inclusive) the sub-stepping count is 2. -/
theorem repeats_of_ten_lt_of_le_twenty {x : ℚ} (h1 : 10 < x) (h2 : x ≤ 20) :
    repeats x = 2 := by
  have hr : (0 : ℚ) < x / 10 := by positivity
  have hub : Int.clog 2 (x / 10) ≤ 1 := by
    refine (Int.le_zpow_iff_clog_le (by norm_num) hr).mp ?_
    rw [zpow_one]
    push_cast
    linarith
  have hlb : 0 < Int.clog 2 (x / 10) := by
    by_contra hcon
    push_neg at hcon
    have := (Int.le_zpow_iff_clog_le (by norm_num) hr).mpr hcon
    rw [zpow_zero] at this
    have : x ≤ 10 := by linarith [(div_le_one (by norm_num : (0:ℚ) < 10)).mp this]
    linarith
  have hclog : Int.clog 2 (x / 10) = 1 := le_antisymm hub hlb
  have hnotlt : ¬ x < (10 : ℚ) := by linarith
  simp only [repeats, MAX_DELTA_TEMPERATURE, MAX_TIME_SUBDIVISIONS, if_neg hnotlt, hclog]
  norm_num

/-- Helper: above twice the threshold, and up to `10·2^63` (beyond which the
64-bit power wraps), the sub-stepping count is clamped to 4. -/
theorem repeats_of_twenty_lt {x : ℚ} (h1 : 20 < x) (h2 : x ≤ 10 * 2 ^ 63) :
    repeats x = 4 := by
  have hr : (0 : ℚ) < x / 10 := by positivity
  have hlb : 1 < Int.clog 2 (x / 10) := by
    by_contra hcon
    push_neg at hcon
    have := (Int.le_zpow_iff_clog_le (by norm_num) hr).mpr hcon
    rw [zpow_one] at this
    have hx2 : x / 10 ≤ 2 := by push_cast at this; linarith
    have : x ≤ 20 := by
      have := (div_le_iff₀ (by norm_num : (0:ℚ) < 10)).mp hx2
      linarith
    linarith
  have hub : Int.clog 2 (x / 10) ≤ 63 := by
    refine (Int.le_zpow_iff_clog_le (by norm_num) hr).mp ?_
    have hcast : ((2 : ℕ) : ℚ) ^ (63 : ℤ) = (2 : ℚ) ^ (63 : ℕ) := by norm_num
    rw [hcast, div_le_iff₀ (by norm_num : (0:ℚ) < 10)]
    calc x ≤ 10 * 2 ^ 63 := h2
    _ = 2 ^ (63 : ℕ) * 10 := by ring
  have hk : 2 ≤ (Int.clog 2 (x / 10)).toNat := by
    have h0 : (2 : ℤ) ≤ Int.clog 2 (x / 10) := hlb
    omega
  have hk63 : (Int.clog 2 (x / 10)).toNat ≤ 63 := by omega
  have hpow : 4 ≤ 2 ^ (Int.clog 2 (x / 10)).toNat := by
    calc (4 : ℕ) = 2 ^ 2 := by norm_num
    _ ≤ 2 ^ (Int.clog 2 (x / 10)).toNat := Nat.pow_le_pow_right (by norm_num) hk
  have hlt : 2 ^ (Int.clog 2 (x / 10)).toNat < 2 ^ 64 :=
    Nat.pow_lt_pow_right (by norm_num) (by omega)
  have hnotlt : ¬ x < MAX_DELTA_TEMPERATURE := by
    rw [MAX_DELTA_TEMPERATURE]; linarith
  rw [repeats, if_neg hnotlt, MAX_TIME_SUBDIVISIONS, MAX_DELTA_TEMPERATURE,
    Nat.mod_eq_of_lt hlt]
  omega

/-- Helper: beyond `10·2^63` the exponent reaches 64 and the source's 64-bit
`2_usize.pow` wraps to 0 (release builds; debug builds panic), so the clamp
returns 1. -/
theorem repeats_wrap {x : ℚ} (h1 : 10 * 2 ^ 63 < x) : repeats x = 1 := by
  have hx0 : (0 : ℚ) < x := lt_trans (by norm_num) h1
  have hr : 0 < x / 10 := div_pos hx0 (by norm_num)
  have hclog : 64 ≤ Int.clog 2 (x / 10) := by
    by_contra hcon
    push_neg at hcon
    have hle : Int.clog 2 (x / 10) ≤ 63 := by omega
    have hzp := (Int.le_zpow_iff_clog_le (by norm_num) hr).mpr hle
    have hcast : ((2 : ℕ) : ℚ) ^ (63 : ℤ) = (2 : ℚ) ^ (63 : ℕ) := by norm_num
    rw [hcast] at hzp
    have hxle := (div_le_iff₀ (by norm_num : (0:ℚ) < 10)).mp hzp
    have heq : (2 : ℚ) ^ (63 : ℕ) * 10 = 10 * 2 ^ 63 := by ring
    rw [heq] at hxle
    linarith
  have he : 64 ≤ (Int.clog 2 (x / 10)).toNat := by omega
  have hdvd : 2 ^ 64 ∣ 2 ^ (Int.clog 2 (x / 10)).toNat := pow_dvd_pow 2 he
  have hmod : 2 ^ (Int.clog 2 (x / 10)).toNat % 2 ^ 64 = 0 := by
    obtain ⟨c, hc⟩ := hdvd
    rw [hc]
    exact Nat.mul_mod_right _ _
  have hnotlt : ¬ x < MAX_DELTA_TEMPERATURE := by
    rw [MAX_DELTA_TEMPERATURE]
    have h63 : (10 : ℚ) < 10 * 2 ^ 63 := by norm_num
    linarith
  rw [repeats, if_neg hnotlt, MAX_TIME_SUBDIVISIONS, MAX_DELTA_TEMPERATURE, hmod]
  norm_num

/-- Helper: the sub-stepping count never drops below 1. -/
theorem one_le_repeats (x : ℚ) : 1 ≤ repeats x := by
  rw [repeats]
  split
  · exact le_refl 1
  · rw [MAX_TIME_SUBDIVISIONS]; omega

/-- Helper: the sub-stepping count never exceeds 4. -/
theorem repeats_le_four (x : ℚ) : repeats x ≤ 4 := by
  rw [repeats]
  split
  · norm_num
  · rw [MAX_TIME_SUBDIVISIONS]; omega

/-- Helper: the sub-stepping count is non-decreasing below the 64-bit wrap
point `10·2^63` (beyond it the wrapped power drops the value back to 1). -/
theorem repeats_mono_below {x y : ℚ} (hxy : x ≤ y) (hy63 : y ≤ 10 * 2 ^ 63) :
    repeats x ≤ repeats y := by
  by_cases hy : y < MAX_DELTA_TEMPERATURE
  · have hx : x < MAX_DELTA_TEMPERATURE := lt_of_le_of_lt hxy hy
    rw [repeats, if_pos hx, repeats, if_pos hy]
  · by_cases hx : x < MAX_DELTA_TEMPERATURE
    · rw [repeats, if_pos hx]
      exact one_le_repeats y
    · rw [repeats, if_neg hx, repeats, if_neg hy]
      push_neg at hx hy
      rw [MAX_DELTA_TEMPERATURE] at hx hy ⊢
      have hxpos : 0 < x / 10 := div_pos (by linarith) (by norm_num)
      have hypos : 0 < y / 10 := div_pos (by linarith) (by norm_num)
      have hclog : Int.clog 2 (x / 10) ≤ Int.clog 2 (y / 10) :=
        Int.clog_mono_right hxpos (by gcongr)
      have hyub : Int.clog 2 (y / 10) ≤ 63 := by
        refine (Int.le_zpow_iff_clog_le (by norm_num) hypos).mp ?_
        have hcast : ((2 : ℕ) : ℚ) ^ (63 : ℤ) = (2 : ℚ) ^ (63 : ℕ) := by norm_num
        rw [hcast, div_le_iff₀ (by norm_num : (0:ℚ) < 10)]
        calc y ≤ 10 * 2 ^ 63 := hy63
        _ = 2 ^ (63 : ℕ) * 10 := by ring
      have htn : (Int.clog 2 (x / 10)).toNat ≤ (Int.clog 2 (y / 10)).toNat :=
        Int.toNat_le_toNat hclog
      have hxlt : 2 ^ (Int.clog 2 (x / 10)).toNat < 2 ^ 64 :=
        Nat.pow_lt_pow_right (by norm_num) (by omega)
      have hylt : 2 ^ (Int.clog 2 (y / 10)).toNat < 2 ^ 64 :=
        Nat.pow_lt_pow_right (by norm_num) (by omega)
      rw [Nat.mod_eq_of_lt hxlt, Nat.mod_eq_of_lt hylt]
      have hpow : 2 ^ (Int.clog 2 (x / 10)).toNat ≤
          2 ^ (Int.clog 2 (y / 10)).toNat :=
        Nat.pow_le_pow_right (by norm_num) htn
      exact min_le_min (max_le_max hpow (le_refl 1)) (le_refl _)

/-- C1 counterexample: the claim as stated gives `repeats(10) = 2` and
`repeats(20) = 4`, but the code returns 1 at 10 (`clog 2 1 = 0`, so
`2^0 = 1`) and 2 at 20 (`clog 2 2 = 1`, so `2^1 = 2`) — the claim's bucket
boundaries disagree with its own formula `2^ceil(log2(x/10))` exactly at the
powers of two; moreover at `x = 10·2^64` (representable in `f32`) the
exponent is 64, the 64-bit `2_usize.pow` wraps to 0 in release builds (debug
builds panic on the overflow), and the clamp yields 1 rather than the
claimed 4. -/
theorem c1_counterexample :
    repeats 10 = 1 ∧ repeats 20 = 2 ∧ repeats (10 * 2 ^ 64) = 1 :=
  ⟨repeats_of_le_ten (le_refl 10),
    repeats_of_ten_lt_of_le_twenty (by norm_num) (le_refl 20),
    repeats_wrap (by norm_num)⟩

/-- C1 (amended): for every non-negative `x`, `repeats x` is 1 for `x ≤ 10`,
2 for `10 < x ≤ 20`, 4 for `20 < x ≤ 10·2^63`, and — because the 64-bit
`2_usize.pow` wraps to 0 once the exponent `ceil(log2(x/10))` reaches 64 — 1
again for `x > 10·2^63`; it never exceeds 4 and is non-decreasing up to
`10·2^63`.  Below the wrap point this is `2^ceil(log2(x/10))` clamped to at
most 4 with 1 returned outright when `x < 10`. -/
theorem c1_repeats_spec :
    (∀ x : ℚ, 0 ≤ x →
      (x ≤ 10 → repeats x = 1) ∧
      (10 < x → x ≤ 20 → repeats x = 2) ∧
      (20 < x → x ≤ 10 * 2 ^ 63 → repeats x = 4) ∧
      (10 * 2 ^ 63 < x → repeats x = 1) ∧
      repeats x ≤ 4) ∧
    (∀ x y : ℚ, x ≤ y → y ≤ 10 * 2 ^ 63 → repeats x ≤ repeats y) :=
  ⟨fun x _ => ⟨repeats_of_le_ten, repeats_of_ten_lt_of_le_twenty,
    repeats_of_twenty_lt, repeats_wrap, repeats_le_four x⟩,
    fun _ _ hxy hy => repeats_mono_below hxy hy⟩

/-- C1 witness: the amended bucket values at 5, 15, 25 and at a
post-wrap-point input. -/
theorem c1_witness :
    ((0 : ℚ) ≤ 5 ∧ (5 : ℚ) ≤ 10 ∧ repeats 5 = 1) ∧
    ((0 : ℚ) ≤ 15 ∧ (10 : ℚ) < 15 ∧ (15 : ℚ) ≤ 20 ∧ repeats 15 = 2) ∧
    ((0 : ℚ) ≤ 25 ∧ (20 : ℚ) < 25 ∧ (25 : ℚ) ≤ 10 * 2 ^ 63 ∧
      repeats 25 = 4) ∧
    ((0 : ℚ) ≤ 10 * 2 ^ 65 ∧ (10 : ℚ) * 2 ^ 63 < 10 * 2 ^ 65 ∧
      repeats (10 * 2 ^ 65) = 1) :=
  ⟨⟨by norm_num, by norm_num,
      (c1_repeats_spec.1 5 (by norm_num)).1 (by norm_num)⟩,
    ⟨by norm_num, by norm_num, by norm_num,
      (c1_repeats_spec.1 15 (by norm_num)).2.1 (by norm_num) (by norm_num)⟩,
    ⟨by norm_num, by norm_num, by norm_num,
      (c1_repeats_spec.1 25 (by norm_num)).2.2.1 (by norm_num) (by norm_num)⟩,
    ⟨by norm_num, by norm_num,
      (c1_repeats_spec.1 (10 * 2 ^ 65) (by norm_num)).2.2.2.1 (by norm_num)⟩⟩

/-- Helper: an in-range `getD` yields a member of the list. -/
theorem getD_pair_mem (l : List RampPair) (i : ℕ) (h : i < l.length) :
    l.getD i (0, 0) ∈ l := by
  rw [List.getD_eq_getElem l (0, 0) h]
  exact List.getElem_mem h

/-- Helper: in an ascending table, the head's temperature bounds every
in-range entry from below. -/
theorem head_temp_le_getD (l : List RampPair) (x : RampPair) (j : ℕ)
    (hs : List.Pairwise (fun u v => u.1 < v.1) (x :: l))
    (hj : j < (x :: l).length) :
    x.1 ≤ ((x :: l).getD j (0, 0)).1 := by
  cases j with
  | zero => rw [List.getD_cons_zero]
  | succ k =>
    rw [List.getD_cons_succ]
    have hk : k < l.length := by simpa using hj
    have hmem : l.getD k (0, 0) ∈ l := getD_pair_mem l k hk
    exact le_of_lt ((List.pairwise_cons.mp hs).1 _ hmem)

/-- Helper: in an ascending table, every entry's temperature is at most the
last entry's. -/
theorem temp_le_getLast (l : List RampPair) (hne : l ≠ [])
    (hs : List.Pairwise (fun u v => u.1 < v.1) l) (r : RampPair) (hr : r ∈ l) :
    r.1 ≤ (l.getLast hne).1 := by
  induction l with
  | nil => exact absurd rfl hne
  | cons x rest ih =>
    cases rest with
    | nil =>
      rcases List.mem_cons.mp hr with rfl | h
      · rfl
      · simp at h
    | cons y rest' =>
      have hne' : y :: rest' ≠ [] := by simp
      rw [List.getLast_cons hne']
      rcases List.mem_cons.mp hr with rfl | hr'
      · have := (List.pairwise_cons.mp hs).1 _ (List.getLast_mem hne')
        exact le_of_lt this
      · exact ih hne' (List.pairwise_cons.mp hs).2 hr'

/-- Helper: the loop of `Ramp::calc` returns the last value once every
remaining breakpoint temperature is at most `t`. -/
theorem rampCalcAux_last (rest : List RampPair) (prev : RampPair) (t : ℚ)
    (h : ∀ r ∈ rest, r.1 ≤ t) :
    rampCalcAux prev rest t = (rest.getLastD prev).2 := by
  induction rest generalizing prev with
  | nil => rfl
  | cons p rest' ih =>
    rw [rampCalcAux, if_neg (not_lt.mpr (h p (List.mem_cons_self p rest'))), List.getLastD_cons]
    exact ih p fun r hr => h r (List.mem_cons_of_mem p hr)

/-- Helper: the loop of `Ramp::calc` interpolates between the bracketing
breakpoints `i` and `i + 1` of the whole table `prev :: rest`. -/
theorem rampCalcAux_interp (rest : List RampPair) (prev : RampPair) (i : ℕ)
    (t : ℚ) (hs : List.Pairwise (fun u v => u.1 < v.1) (prev :: rest))
    (hi : i + 1 < (prev :: rest).length)
    (hlow : ((prev :: rest).getD i (0, 0)).1 ≤ t)
    (hhigh : t < ((prev :: rest).getD (i + 1) (0, 0)).1) :
    rampCalcAux prev rest t =
      ((prev :: rest).getD i (0, 0)).2 +
        (((prev :: rest).getD (i + 1) (0, 0)).2 - ((prev :: rest).getD i (0, 0)).2) /
          (((prev :: rest).getD (i + 1) (0, 0)).1 - ((prev :: rest).getD i (0, 0)).1) *
          (t - ((prev :: rest).getD i (0, 0)).1) := by
  induction rest generalizing prev i with
  | nil => simp at hi
  | cons q rest' ih =>
    cases i with
    | zero =>
      rw [List.getD_cons_zero] at hlow ⊢
      rw [List.getD_cons_succ, List.getD_cons_zero] at hhigh ⊢
      rw [rampCalcAux, if_pos hhigh]
    | succ j =>
      have hs' : List.Pairwise (fun u v => u.1 < v.1) (q :: rest') :=
        (List.pairwise_cons.mp hs).2
      have hj1 : j + 1 < (q :: rest').length := by simpa using hi
      rw [List.getD_cons_succ] at hlow hhigh ⊢
      rw [List.getD_cons_succ]
      have hqle : q.1 ≤ ((q :: rest').getD j (0, 0)).1 :=
        head_temp_le_getD rest' q j hs' (Nat.lt_of_succ_lt hj1)
      have hnot : ¬ t < q.1 := not_lt.mpr (le_trans hqle hlow)
      rw [rampCalcAux, if_neg hnot]
      exact ih q j hs' hj1 hlow hhigh

/-- C4: `Ramp::calc` returns the first value at or below the first breakpoint
temperature, the last value at or above the last breakpoint temperature, and
otherwise the linear interpolation between the bracketing breakpoints of an
ascending table; in particular for the table `[(0,10),(10,20)]` it returns
10 at -5, 15 at 5 and 20 at 20. -/
theorem c4_ramp_calc (l : List RampPair) (hne : l ≠ [])
    (hs : List.Pairwise (fun u v => u.1 < v.1) l) (t : ℚ) :
    (t ≤ (l.getD 0 (0, 0)).1 → rampCalc l t = (l.getD 0 (0, 0)).2) ∧
    ((l.getLast hne).1 ≤ t → rampCalc l t = (l.getLast hne).2) ∧
    (∀ i : ℕ, 0 < i → i < l.length →
      (l.getD (i - 1) (0, 0)).1 ≤ t → t < (l.getD i (0, 0)).1 →
      rampCalc l t =
        (l.getD (i - 1) (0, 0)).2 +
          ((l.getD i (0, 0)).2 - (l.getD (i - 1) (0, 0)).2) /
            ((l.getD i (0, 0)).1 - (l.getD (i - 1) (0, 0)).1) *
            (t - (l.getD (i - 1) (0, 0)).1)) ∧
    (rampCalc [((0 : ℚ), (10 : ℚ)), (10, 20)] (-5) = 10 ∧
      rampCalc [((0 : ℚ), (10 : ℚ)), (10, 20)] 5 = 15 ∧
      rampCalc [((0 : ℚ), (10 : ℚ)), (10, 20)] 20 = 20) := by
  obtain ⟨p, rest, rfl⟩ : ∃ p rest, l = p :: rest := by
    cases l with
    | nil => exact absurd rfl hne
    | cons p rest => exact ⟨p, rest, rfl⟩
  refine ⟨?_, ?_, ?_, by norm_num [rampCalc, rampCalcAux],
    by norm_num [rampCalc, rampCalcAux], by norm_num [rampCalc, rampCalcAux]⟩
  · intro hle
    rw [List.getD_cons_zero]
    rw [rampCalc, if_pos (by rwa [List.getD_cons_zero] at hle)]
  · intro hge
    by_cases hle : t ≤ p.1
    · have hmemlast := List.getLast_mem hne
      have hple : (( p :: rest).getLast hne).1 ≤ p.1 := le_trans hge hle
      cases rest with
      | nil => rw [rampCalc, if_pos hle]; rw [List.getLast_singleton]
      | cons q rest' =>
        exfalso
        have hne' : q :: rest' ≠ [] := by simp
        have hlt : p.1 < ((q :: rest').getLast hne').1 :=
          (List.pairwise_cons.mp hs).1 _ (List.getLast_mem hne')
        rw [List.getLast_cons hne'] at hple
        exact absurd (lt_of_lt_of_le hlt hple) (lt_irrefl _)
    · rw [rampCalc, if_neg hle]
      have hall : ∀ r ∈ rest, r.1 ≤ t := by
        intro r hr
        refine le_trans (temp_le_getLast (p :: rest) hne hs r (List.mem_cons_of_mem p hr)) hge
      rw [rampCalcAux_last rest p t hall]
      cases rest with
      | nil => rw [List.getLast_singleton]; rfl
      | cons q rest' =>
        have hne' : q :: rest' ≠ [] := by simp
        rw [List.getLast_cons hne']
        simp [List.getLastD_eq_getLast?, List.getLast?_eq_getLast _ hne']
  · intro i hi0 hilen hlow hhigh
    obtain ⟨j, rfl⟩ : ∃ j, i = j + 1 := ⟨i - 1, (Nat.succ_pred_eq_of_pos hi0).symm⟩
    simp only [Nat.add_sub_cancel] at hlow ⊢
    by_cases hle : t ≤ p.1
    · cases j with
      | zero =>
        rw [List.getD_cons_zero] at hlow ⊢
        have ht : t = p.1 := le_antisymm hle hlow
        rw [rampCalc, if_pos hle, ht]
        ring
      | succ k =>
        exfalso
        rw [List.getD_cons_succ] at hlow
        have hk : k < rest.length := by
          have := hilen
          simp only [List.length_cons] at this
          omega
        have hlt : p.1 < (rest.getD k (0, 0)).1 :=
          (List.pairwise_cons.mp hs).1 _ (getD_pair_mem rest k hk)
        linarith
    · rw [rampCalc, if_neg hle]
      exact rampCalcAux_interp rest p j t hs (by simpa using hilen) hlow hhigh

/-- C4 witness: the general theorem instantiated on the ascending table
`[(0,10),(10,20)]` at the three concrete probe temperatures. -/
theorem c4_witness :
    rampCalc [((0 : ℚ), (10 : ℚ)), (10, 20)] (-5) = 10 ∧
    rampCalc [((0 : ℚ), (10 : ℚ)), (10, 20)] 5 = 15 ∧
    rampCalc [((0 : ℚ), (10 : ℚ)), (10, 20)] 20 = 20 :=
  (c4_ramp_calc [((0 : ℚ), (10 : ℚ)), (10, 20)] (by simp)
    (by norm_num [List.pairwise_cons]) 0).2.2.2

/-- C5: the boundary closure returns `(rfac2, qdxk) = (1, 0)` on a side whose
coefficient equals the sentinel `ADIABATIC_H = -100000`, `(-1, 2q)` on a side
whose coefficient equals `CONST_TEMP_H = -100001`, and otherwise — on the
front side and on the back side alike — takes the convective/radiative branch
(linearized Stefan-Boltzmann radiation combined with `h/2`, divided through
that side's half-cell conductive resistance `k/dx`), for every wall element,
materials list and flux pair. -/
theorem c5_boundary_closure :
    ADIABATIC_H = -100000 ∧ CONST_TEMP_H = -100001 ∧
    (∀ (we : WallElement) (ms : List Material) (q : ℚ × ℚ) (hb : ℚ),
      (calc_rfac2_and_qdxk_no_radiation we ms (ADIABATIC_H, hb) q).1 = 1 ∧
      (calc_rfac2_and_qdxk_no_radiation we ms (ADIABATIC_H, hb) q).2.1 = 0) ∧
    (∀ (we : WallElement) (ms : List Material) (q : ℚ × ℚ) (hb : ℚ),
      (calc_rfac2_and_qdxk_no_radiation we ms (CONST_TEMP_H, hb) q).1 = -1 ∧
      (calc_rfac2_and_qdxk_no_radiation we ms (CONST_TEMP_H, hb) q).2.1 = 2 * q.1) ∧
    (∀ (we : WallElement) (ms : List Material) (q : ℚ × ℚ) (hf : ℚ),
      (calc_rfac2_and_qdxk_no_radiation we ms (hf, ADIABATIC_H) q).2.2.1 = 1 ∧
      (calc_rfac2_and_qdxk_no_radiation we ms (hf, ADIABATIC_H) q).2.2.2 = 0) ∧
    (∀ (we : WallElement) (ms : List Material) (q : ℚ × ℚ) (hf : ℚ),
      (calc_rfac2_and_qdxk_no_radiation we ms (hf, CONST_TEMP_H) q).2.2.1 = -1 ∧
      (calc_rfac2_and_qdxk_no_radiation we ms (hf, CONST_TEMP_H) q).2.2.2 = 2 * q.2) ∧
    (∀ (we : WallElement) (ms : List Material) (q : ℚ × ℚ) (h : ℚ × ℚ),
      h.1 ≠ ADIABATIC_H → h.1 ≠ CONST_TEMP_H →
      (calc_rfac2_and_qdxk_no_radiation we ms h q).1 =
        (let tf := ((cellAt we 0).temperature + (cellAt we 1).temperature) / 2
        let mf := matAt ms (cellAt we 0).material
        let rfac := 1 / 2 * h.1 + 2 * mf.emissivity * SIGMA * tf ^ 3
        let kdx := rampCalc mf.conductivity tf / (cellAt we 0).size
        (kdx - rfac) / (kdx + rfac)) ∧
      (calc_rfac2_and_qdxk_no_radiation we ms h q).2.1 =
        (let tf := ((cellAt we 0).temperature + (cellAt we 1).temperature) / 2
        let mf := matAt ms (cellAt we 0).material
        let rfac := 1 / 2 * h.1 + 2 * mf.emissivity * SIGMA * tf ^ 3
        let kdx := rampCalc mf.conductivity tf / (cellAt we 0).size
        (q.1 + 3 * mf.emissivity * SIGMA * tf ^ 4) / (kdx + rfac))) ∧
    (∀ (we : WallElement) (ms : List Material) (q : ℚ × ℚ) (h : ℚ × ℚ),
      h.2 ≠ ADIABATIC_H → h.2 ≠ CONST_TEMP_H →
      (calc_rfac2_and_qdxk_no_radiation we ms h q).2.2.1 =
        (let tb := ((cellAt we (we.length - 1)).temperature +
          (cellAt we (we.length - 2)).temperature) / 2
        let mb := matAt ms (cellAt we (we.length - 1)).material
        let rfac := 1 / 2 * h.2 + 2 * mb.emissivity * SIGMA * tb ^ 3
        let kdx := rampCalc mb.conductivity tb / (cellAt we (we.length - 1)).size
        (kdx - rfac) / (kdx + rfac)) ∧
      (calc_rfac2_and_qdxk_no_radiation we ms h q).2.2.2 =
        (let tb := ((cellAt we (we.length - 1)).temperature +
          (cellAt we (we.length - 2)).temperature) / 2
        let mb := matAt ms (cellAt we (we.length - 1)).material
        let rfac := 1 / 2 * h.2 + 2 * mb.emissivity * SIGMA * tb ^ 3
        let kdx := rampCalc mb.conductivity tb / (cellAt we (we.length - 1)).size
        (q.2 + 3 * mb.emissivity * SIGMA * tb ^ 4) / (kdx + rfac))) := by
  have hiff : ADIABATIC_H ≠ CONST_TEMP_H := by norm_num [ADIABATIC_H, CONST_TEMP_H]
  have hiff2 : CONST_TEMP_H ≠ ADIABATIC_H := fun hcon => hiff hcon.symm
  refine ⟨rfl, rfl, ?_, ?_, ?_, ?_, ?_, ?_⟩
  · intro we ms q hb
    constructor <;> simp [calc_rfac2_and_qdxk_no_radiation]
  · intro we ms q hb
    constructor <;> simp [calc_rfac2_and_qdxk_no_radiation, hiff2]
  · intro we ms q hf
    by_cases h1 : hf = ADIABATIC_H <;> by_cases h2 : hf = CONST_TEMP_H <;>
      constructor <;> simp [calc_rfac2_and_qdxk_no_radiation, h1, h2, hiff2]
  · intro we ms q hf
    by_cases h1 : hf = ADIABATIC_H
    · subst h1
      constructor <;> simp [calc_rfac2_and_qdxk_no_radiation, hiff, hiff2]
    · by_cases h2 : hf = CONST_TEMP_H <;>
        constructor <;> simp [calc_rfac2_and_qdxk_no_radiation, h1, h2, hiff, hiff2]
  · intro we ms q h h1 h2
    constructor <;> simp [calc_rfac2_and_qdxk_no_radiation, h1, h2]
  · intro we ms q h h1 h2
    constructor <;> simp [calc_rfac2_and_qdxk_no_radiation, h1, h2]

/-- C5 witness: the sentinel and convective cases instantiated at a concrete
non-sentinel coefficient. -/
theorem c5_witness :
    (calc_rfac2_and_qdxk_no_radiation [] [] (ADIABATIC_H, (0 : ℚ)) (0, 0)).1 = 1 ∧
    (calc_rfac2_and_qdxk_no_radiation [] [] (CONST_TEMP_H, (0 : ℚ)) (3, 0)).2.1 = 2 * 3 ∧
    ((5 : ℚ) ≠ ADIABATIC_H ∧ (5 : ℚ) ≠ CONST_TEMP_H) :=
  ⟨(c5_boundary_closure.2.2.1 [] [] (0, 0) 0).1,
    by
      have := (c5_boundary_closure.2.2.2.1 [] [] ((3 : ℚ), (0 : ℚ)) 0).2
      simpa using this,
    by norm_num [ADIABATIC_H], by norm_num [CONST_TEMP_H]⟩

/-- Helper: chunking with a positive chunk size bounds every chunk's length
by the chunk size and concatenates back to the original list. -/
theorem chunksOf_spec (k : ℕ) (hk : 0 < k) (l : List WallElement) :
    (∀ c ∈ chunksOf k l, c.length ≤ k) ∧ (chunksOf k l).flatten = l := by
  induction l using chunksOf.induct k with
  | case1 l h =>
    rcases h with h | h
    · omega
    · subst h
      rw [chunksOf]
      simp
  | case2 l h ih =>
    rw [chunksOf, if_neg h]
    push_neg at h
    refine ⟨?_, ?_⟩
    · intro c hc
      rcases List.mem_cons.mp hc with rfl | hc'
      · simp [Nat.min_le_left k l.length]
      · exact ih.1 c hc'
    · simp only [List.flatten_cons, ih.2, List.take_append_drop]

/-- Helper: the M2 grouping loop concatenates to the pending run followed by
the remaining elements. -/
theorem m2RunsAux_flatten (rest : List WallElement) :
    ∀ s acc, (m2RunsAux s acc rest).flatten = acc.reverse ++ rest := by
  induction rest with
  | nil => intro s acc; simp [m2RunsAux]
  | cons w rest' ih =>
    intro s acc
    rw [m2RunsAux]
    by_cases hw : sig w = s
    · rw [if_pos hw, ih]
      simp
    · rw [if_neg hw]
      simp [ih]

/-- Helper: every group emitted by the M2 grouping loop is a non-empty run of
structurally identical elements, provided the pending run is one. -/
theorem m2RunsAux_groups (rest : List WallElement) :
    ∀ s acc, acc ≠ [] → (∀ w ∈ acc, sig w = s) →
      ∀ g ∈ m2RunsAux s acc rest, g ≠ [] ∧ ∀ w ∈ g, ∀ w' ∈ g, sig w = sig w' := by
  induction rest with
  | nil =>
    intro s acc hne hsig g hg
    rw [m2RunsAux] at hg
    rcases List.mem_cons.mp hg with rfl | h
    · refine ⟨by simpa using hne, ?_⟩
      intro w hw w' hw'
      rw [List.mem_reverse] at hw hw'
      rw [hsig w hw, hsig w' hw']
    · simp at h
  | cons w rest' ih =>
    intro s acc hne hsig g hg
    rw [m2RunsAux] at hg
    by_cases hw : sig w = s
    · rw [if_pos hw] at hg
      refine ih s (w :: acc) (by simp) ?_ g hg
      intro u hu
      rcases List.mem_cons.mp hu with rfl | hu'
      · exact hw
      · exact hsig u hu'
    · rw [if_neg hw] at hg
      rcases List.mem_cons.mp hg with rfl | hg'
      · refine ⟨by simpa using hne, ?_⟩
        intro u hu u' hu'
        rw [List.mem_reverse] at hu hu'
        rw [hsig u hu, hsig u' hu']
      · exact ih (sig w) [w] (by simp) (by simp) g hg'

/-- C6 counterexample: with the configured maximum elements per chunk set
to 1, two structurally identical single-cell wall elements are placed by
strategy M2's `ShaderChunk::build` into one group of 2 elements — the build
never reads `get_max_element_per_chunk()`, so its groups are not bounded by
the configured maximum. -/
theorem c6_counterexample :
    ∃ g ∈ shaderChunkBuildM2 [[⟨1, 0, 20⟩], [⟨1, 0, 20⟩]], 1 < g.length := by
  refine ⟨[[⟨1, 0, 20⟩], [⟨1, 0, 20⟩]], ?_, by norm_num⟩
  simp [shaderChunkBuildM2, m2RunsAux, sig]

/-- C6 (amended): the chunk builds of strategies M1 and M3 partition the wall
elements in their original order into groups of at most the configured maximum
per chunk; strategy M2's build partitions them in their original order into
non-empty runs of structurally identical elements, with no per-chunk bound
applied. -/
theorem c6_chunk_partition :
    (∀ (k : ℕ) (l : List WallElement), 0 < k →
      (∀ c ∈ chunkBuildM1 k l, c.length ≤ k) ∧ (chunkBuildM1 k l).flatten = l) ∧
    (∀ (k : ℕ) (l : List WallElement), 0 < k →
      (∀ c ∈ chunkBuildM3 k l, c.length ≤ k) ∧ (chunkBuildM3 k l).flatten = l) ∧
    (∀ l : List WallElement, (shaderChunkBuildM2 l).flatten = l ∧
      ∀ g ∈ shaderChunkBuildM2 l, g ≠ [] ∧ ∀ w ∈ g, ∀ w' ∈ g, sig w = sig w') := by
  refine ⟨fun k l hk => chunksOf_spec k hk l, fun k l hk => chunksOf_spec k hk l, ?_⟩
  intro l
  cases l with
  | nil => exact ⟨rfl, by intro g hg; simp [shaderChunkBuildM2] at hg⟩
  | cons w rest =>
    constructor
    · rw [shaderChunkBuildM2, m2RunsAux_flatten]
      simp
    · intro g hg
      exact m2RunsAux_groups rest (sig w) [w] (by simp) (by simp) g hg

/-- C6 witness: the amended statement instantiated with chunk size 1 on two
single-cell elements. -/
theorem c6_witness :
    0 < 1 ∧
    (∀ c ∈ chunkBuildM1 1 [[⟨1, 0, 20⟩], [⟨2, 0, 20⟩]], c.length ≤ 1) ∧
    (chunkBuildM1 1 [[⟨1, 0, 20⟩], [⟨2, 0, 20⟩]]).flatten = [[⟨1, 0, 20⟩], [⟨2, 0, 20⟩]] :=
  ⟨Nat.one_pos,
    (c6_chunk_partition.1 1 [[⟨1, 0, 20⟩], [⟨2, 0, 20⟩]] Nat.one_pos).1,
    (c6_chunk_partition.1 1 [[⟨1, 0, 20⟩], [⟨2, 0, 20⟩]] Nat.one_pos).2⟩

/-- C9: the CPU backend's `update` never produces an `UpdateFailure`: whenever
the three caller-provided slices each have exactly one entry per stored wall
element it returns `Ok(())` (modelled: `some`), and on any length mismatch the
`zip_eq` adapters panic (modelled: `none`) instead of returning an error
value. -/
theorem c9_update_no_error (ms : List Material) (walls : List WallElement)
    (dt : ℚ) (coeffs qins temps : List (ℚ × ℚ)) :
    ((walls.length = temps.length ∧ coeffs.length = qins.length ∧
        walls.length = coeffs.length) →
      ∃ res, update ms walls dt coeffs qins temps = some res) ∧
    (¬ (walls.length = temps.length ∧ coeffs.length = qins.length ∧
        walls.length = coeffs.length) →
      update ms walls dt coeffs qins temps = none) := by
  constructor
  · intro h
    rw [update, if_pos h]
    exact ⟨_, rfl⟩
  · intro h
    rw [update, if_neg h]

/-- C9 witness: a matched call returns a value, a mismatched call panics. -/
theorem c9_witness :
    (∃ res, update [] [] 1 [] [] [] = some res) ∧
    update [] [[⟨1, 0, 20⟩]] 1 [] [] [] = none :=
  ⟨(c9_update_no_error [] [] 1 [] [] []).1 (by simp),
    (c9_update_no_error [] [[⟨1, 0, 20⟩]] 1 [] [] []).2 (by simp)⟩

/-- Helper: `getD` of a mapped list in range. -/
theorem getD_map_of_lt {α β : Type} (f : α → β) (l : List α) (i : ℕ) (da : α)
    (db : β) (h : i < l.length) : (l.map f).getD i db = f (l.getD i da) := by
  rw [List.getD_eq_getElem (l.map f) db (by simpa using h), List.getElem_map,
    List.getD_eq_getElem l da h]

/-- Helper: `getD` of a `zipWith` in range. -/
theorem getD_zipWith_of_lt {α β γ : Type} (f : α → β → γ) (l1 : List α)
    (l2 : List β) (i : ℕ) (d1 : α) (d2 : β) (dg : γ) (h1 : i < l1.length)
    (h2 : i < l2.length) :
    (List.zipWith f l1 l2).getD i dg = f (l1.getD i d1) (l2.getD i d2) := by
  induction l1 generalizing l2 i with
  | nil => simp at h1
  | cons a l1' ih =>
    cases l2 with
    | nil => simp at h2
    | cons b l2' =>
      cases i with
      | zero => simp
      | succ j =>
        simp only [List.zipWith_cons_cons, List.getD_cons_succ]
        exact ih l2' j (by simpa using h1) (by simpa using h2)

/-- Helper: `getD` of a `zip` in range. -/
theorem getD_zip_of_lt {α β : Type} (l1 : List α) (l2 : List β) (i : ℕ)
    (d1 : α) (d2 : β) (h1 : i < l1.length) (h2 : i < l2.length) :
    (l1.zip l2).getD i (d1, d2) = (l1.getD i d1, l2.getD i d2) := by
  induction l1 generalizing l2 i with
  | nil => simp at h1
  | cons a l1' ih =>
    cases l2 with
    | nil => simp at h2
    | cons b l2' =>
      cases i with
      | zero => simp
      | succ j =>
        simp only [List.zip_cons_cons, List.getD_cons_succ]
        exact ih l2' j (by simpa using h1) (by simpa using h2)

/-- C8: on a matched call, `update`'s per-element output is `heat_transfer` of
the stored element, and its reported temperature pair is front = average of
cells 0 and 1 and back = average of cells `L-1` and `L-2` of that element
after its `heat_transfer` step. -/
theorem c8_update_reports (ms : List Material) (walls : List WallElement)
    (dt : ℚ) (coeffs qins temps : List (ℚ × ℚ))
    (h1 : walls.length = temps.length) (h2 : coeffs.length = qins.length)
    (h3 : walls.length = coeffs.length) (i : ℕ) (hi : i < walls.length) :
    ∃ ws ts, update ms walls dt coeffs qins temps = some (ws, ts) ∧
      ws.getD i [] =
        heat_transfer (walls.getD i []) ms (coeffs.getD i (0, 0))
          (qins.getD i (0, 0)) dt ∧
      ts.getD i (0, 0) =
        (((cellAt (ws.getD i []) 0).temperature +
            (cellAt (ws.getD i []) 1).temperature) / 2,
          ((cellAt (ws.getD i []) ((ws.getD i []).length - 1)).temperature +
            (cellAt (ws.getD i []) ((ws.getD i []).length - 2)).temperature) / 2) := by
  have hic : i < coeffs.length := h3 ▸ hi
  have hiq : i < qins.length := h2 ▸ hic
  have hzip : i < (coeffs.zip qins).length := by
    rw [List.length_zip]
    omega
  rw [update, if_pos ⟨h1, h2, h3⟩]
  refine ⟨_, _, rfl, ?_, ?_⟩
  · rw [getD_zipWith_of_lt _ walls (coeffs.zip qins) i [] ((0, 0), (0, 0)) [] hi hzip,
      getD_zip_of_lt coeffs qins i (0, 0) (0, 0) hic hiq]
  · have hiw : i < (List.zipWith
        (fun w cq => heat_transfer w ms cq.1 cq.2 dt) walls (coeffs.zip qins)).length := by
      rw [List.length_zipWith]
      omega
    rw [getD_map_of_lt reportPair _ i [] (0, 0) hiw]
    rfl

/-- C8 witness: a single steel element with matched slices. -/
theorem c8_witness :
    ∃ ws ts,
      update [steel] [uniformWe3] 1 [(5, 5)] [(0, 0)] [(0, 0)] = some (ws, ts) ∧
      ws.getD 0 [] = heat_transfer uniformWe3 [steel] (5, 5) (0, 0) 1 ∧
      ts.getD 0 (0, 0) =
        (((cellAt (ws.getD 0 []) 0).temperature +
            (cellAt (ws.getD 0 []) 1).temperature) / 2,
          ((cellAt (ws.getD 0 []) ((ws.getD 0 []).length - 1)).temperature +
            (cellAt (ws.getD 0 []) ((ws.getD 0 []).length - 2)).temperature) / 2) := by
  have := c8_update_reports [steel] [uniformWe3] 1 [(5, 5)] [(0, 0)] [(0, 0)]
    rfl rfl rfl 0 (by simp)
  simpa using this

/-- Helper: writing temperatures back leaves every cell's size and material
untouched. -/
theorem writeTemps_shape (cells : List WallCell) (xs : List ℚ) :
    (writeTemps cells xs).map (fun c => (c.size, c.material)) =
      cells.map (fun c => (c.size, c.material)) := by
  induction cells generalizing xs with
  | nil => cases xs <;> rfl
  | cons c cs ih =>
    cases xs with
    | nil => rfl
    | cons x xs' => simp [writeTemps, ih]

/-- Helper: setting the last temperature leaves every cell's size and material
untouched. -/
theorem setLastTemp_shape (t : ℚ) (cells : List WallCell) :
    (setLastTemp t cells).map (fun c => (c.size, c.material)) =
      cells.map (fun c => (c.size, c.material)) := by
  induction cells with
  | nil => rfl
  | cons c cs ih =>
    cases cs with
    | nil => rfl
    | cons c2 cs' => simpa [setLastTemp] using ih

/-- Helper: one solve pass leaves every cell's size and material untouched. -/
theorem solve_shape (we : WallElement) (ms : List Material)
    (rq : ℚ × ℚ × ℚ × ℚ) (dt : ℚ) :
    (solve_heat_transfer we ms rq dt).map (fun c => (c.size, c.material)) =
      we.map (fun c => (c.size, c.material)) := by
  obtain ⟨rf, qf, rb, qb⟩ := rq
  rw [solve_heat_transfer]
  split
  · rfl
  · dsimp only
    split
    · rename_i c0 crest x0 xtail hwe hxs
      rw [setLastTemp_shape]
      simp only [List.map_cons, writeTemps_shape]
    · rfl

/-- Helper: the sub-stepping loop leaves every cell's size and material
untouched. -/
theorem htIter_shape (ms : List Material) (h q : ℚ × ℚ) (dt' : ℚ) (n : ℕ)
    (we : WallElement) :
    (htIter ms h q dt' n we).map (fun c => (c.size, c.material)) =
      we.map (fun c => (c.size, c.material)) := by
  induction n generalizing we with
  | zero => rfl
  | succ m ih => rw [htIter, ih, solve_shape]

/-- C10: `heat_transfer` mutates only cell temperatures: each cell's size and
material index, and hence the element's cell count, are unchanged (the
materials list is taken by shared reference in the source and never written,
so it is unchanged by construction). -/
theorem c10_frame (we : WallElement) (ms : List Material) (h q : ℚ × ℚ)
    (dt : ℚ) (_hlen : 3 ≤ we.length) :
    (heat_transfer we ms h q dt).map (fun c => (c.size, c.material)) =
      we.map (fun c => (c.size, c.material)) ∧
    (heat_transfer we ms h q dt).length = we.length := by
  have hshape : (heat_transfer we ms h q dt).map (fun c => (c.size, c.material)) =
      we.map (fun c => (c.size, c.material)) := by
    rw [heat_transfer]
    exact htIter_shape ms h q _ _ we
  refine ⟨hshape, ?_⟩
  have := congrArg List.length hshape
  simpa using this

/-- C10 witness: a three-cell element. -/
theorem c10_witness :
    3 ≤ uniformWe3.length ∧
    (heat_transfer uniformWe3 [unitMat] (0, 0) (0, 0) 1).map
        (fun c => (c.size, c.material)) =
      uniformWe3.map (fun c => (c.size, c.material)) :=
  ⟨by norm_num [uniformWe3],
    (c10_frame uniformWe3 [unitMat] (0, 0) (0, 0) 1 (by norm_num [uniformWe3])).1⟩

/-- Helper: with all remaining cells at one temperature `T` (equal to the
reference temperature `t_c` the loop carries), the running imbalance stays
0: every flux difference is `k * (T - T) = 0`. -/
theorem maxDeltaAux_uniform (ms : List Material) (dt T kc : ℚ)
    (rest : List WallCell) (h : ∀ c ∈ rest, c.temperature = T) :
    ∀ xc f1, maxDeltaAux ms dt T kc xc 0 f1 0 rest = 0 := by
  induction rest with
  | nil => intro xc f1; rfl
  | cons ca rest' ih =>
    intro xc f1
    have hca : ca.temperature = T := h ca (List.mem_cons_self ca rest')
    rw [maxDeltaAux]
    simp only [hca, sub_self, mul_zero, zero_div, zero_sub, neg_zero, abs_zero,
      max_self]
    exact ih (fun c hc => h c (List.mem_cons_of_mem ca hc)) ca.size _

/-- Helper: a wall element at uniform temperature has zero maximum
temperature-flux imbalance, for any materials and any timestep. -/
theorem max_delta_uniform (we : WallElement) (ms : List Material) (dt T : ℚ)
    (h : ∀ c ∈ we, c.temperature = T) : max_delta_temperature we ms dt = 0 := by
  cases we with
  | nil => rfl
  | cons cb rest =>
    cases rest with
    | nil => rfl
    | cons cc rest' =>
      have hcb : cb.temperature = T := h cb (by simp)
      have hcc : cc.temperature = T := h cc (by simp)
      rw [max_delta_temperature]
      simp only [hcb, hcc, sub_self, mul_zero, zero_div]
      exact maxDeltaAux_uniform ms dt T _ rest'
        (fun c hc => h c (by simp [hc])) cc.size _

/-- Helper: the sub-stepping count at zero imbalance is 1. -/
theorem repeats_zero : repeats 0 = 1 := repeats_of_le_ten (by norm_num)

/-- Helper: a quotient of a non-negative numerator by a positive denominator,
negated, is non-positive. -/
theorem neg_div_nonpos (num den : ℚ) (hnum : 0 ≤ num) (hden : 0 < den) :
    -num / den ≤ 0 := by
  have : 0 ≤ num / den := by positivity
  rw [neg_div]
  linarith

/-- Helper: at uniform temperature the populate loop emits only rows of shape
`(b, 1 - a - b, a, T)` with non-positive off-diagonal coefficients, given
positive sizes and the material positivity facts. -/
theorem populateAux_uniform (ms : List Material) (dt T : ℚ) (hdt : 0 ≤ dt)
    (rest : List WallCell)
    (hrest : ∀ c ∈ rest, c.temperature = T ∧ 0 < c.size ∧
      GoodAt T (matAt ms c.material)) :
    ∀ (matd : Material) (dxd f1 b : ℚ), GoodAt T matd → 0 < dxd → 0 < f1 →
      b ≤ 0 → ∀ row ∈ populateAux ms dt T matd dxd f1 b 0 rest, RowOk T row := by
  induction rest with
  | nil => intro matd dxd f1 b _ _ _ _ row hrow; simp [populateAux] at hrow
  | cons ca rest' ih =>
    intro matd dxd f1 b hmatd hdxd hf1 hb row hrow
    obtain ⟨hcat, hcas, hcam⟩ := hrest ca (List.mem_cons_self ca rest')
    rw [populateAux] at hrow
    simp only [hcat] at hrow
    have hka : 0 ≤ (rampCalc matd.conductivity T +
        rampCalc (matAt ms ca.material).conductivity T) / 2 := by
      have h1 := hmatd.2.2
      have h2 := hcam.2.2
      linarith
    have hden : 0 < f1 * dxd * (dxd + ca.size) / 2 := by positivity
    have ha : -dt * ((rampCalc matd.conductivity T +
        rampCalc (matAt ms ca.material).conductivity T) / 2) /
        (f1 * dxd * (dxd + ca.size) / 2) ≤ 0 := by
      rw [neg_mul]
      exact neg_div_nonpos _ _ (mul_nonneg hdt hka) hden
    rcases List.mem_cons.mp hrow with rfl | hrow'
    · refine ⟨ha, hb, rfl, ?_⟩
      simp
    · have hf1' : 0 < 2 * (matAt ms ca.material).density *
          rampCalc (matAt ms ca.material).specific_heat T := by
        have h1 := hcam.1
        have h2 := hcam.2.1
        positivity
      have hkb' : 0 ≤ (rampCalc (matAt ms ca.material).conductivity T +
          rampCalc (matAt ms ca.material).conductivity T) / 2 := by
        have h2 := hcam.2.2
        linarith
      have hb' : -dt * ((rampCalc (matAt ms ca.material).conductivity T +
          rampCalc (matAt ms ca.material).conductivity T) / 2) /
          (2 * (matAt ms ca.material).density *
            rampCalc (matAt ms ca.material).specific_heat T * ca.size *
            (ca.size + dxd) / 2) ≤ 0 := by
        rw [neg_mul]
        refine neg_div_nonpos _ _ (mul_nonneg hdt hkb') (by positivity)
      have := ih (fun c hc => hrest c (List.mem_cons_of_mem ca hc))
        (matAt ms ca.material) ca.size _ _ hcam hcas hf1' hb'
      simp only [sub_self, mul_zero] at hrow'
      exact this row hrow'

/-- Helper: at uniform temperature every row of the solve matrix has the
`RowOk` shape. -/
theorem populate_uniform (we : WallElement) (ms : List Material) (dt T : ℚ)
    (hdt : 0 ≤ dt) (htemp : ∀ c ∈ we, c.temperature = T)
    (hsize : ∀ c ∈ we, 0 < c.size)
    (hmat : ∀ c ∈ we, GoodAt T (matAt ms c.material)) :
    ∀ row ∈ populate_solve_matrix we ms dt, RowOk T row := by
  cases we with
  | nil => intro row hrow; simp [populate_solve_matrix] at hrow
  | cons cb rest =>
    cases rest with
    | nil => intro row hrow; simp [populate_solve_matrix] at hrow
    | cons cd rest' =>
      intro row hrow
      rw [populate_solve_matrix] at hrow
      have hcbt : cb.temperature = T := htemp cb (by simp)
      have hcdt : cd.temperature = T := htemp cd (by simp)
      have hcds : 0 < cd.size := hsize cd (by simp)
      have hcdm : GoodAt T (matAt ms cd.material) := hmat cd (by simp)
      have hcbm : GoodAt T (matAt ms cb.material) := hmat cb (by simp)
      simp only [hcbt, hcdt, sub_self, mul_zero] at hrow
      have hf1 : 0 < 2 * (matAt ms cd.material).density *
          rampCalc (matAt ms cd.material).specific_heat T := by
        have h1 := hcdm.1
        have h2 := hcdm.2.1
        positivity
      have hkb : 0 ≤ (rampCalc (matAt ms cd.material).conductivity T +
          rampCalc (matAt ms cb.material).conductivity T) / 2 := by
        have h1 := hcdm.2.2
        have h2 := hcbm.2.2
        linarith
      have hrho : 0 < (matAt ms cd.material).density := hcdm.1
      have hsh : 0 < rampCalc (matAt ms cd.material).specific_heat T := hcdm.2.1
      have hcbs : 0 < cb.size := hsize cb (by simp)
      have hbneg : -dt * ((rampCalc (matAt ms cd.material).conductivity T +
          rampCalc (matAt ms cb.material).conductivity T) / 2) /
          (2 * (matAt ms cd.material).density *
            rampCalc (matAt ms cd.material).specific_heat T * cd.size *
            (cd.size + cb.size) / 2) ≤ 0 := by
        rw [neg_mul]
        exact neg_div_nonpos _ _ (mul_nonneg hdt hkb) (by positivity)
      exact populateAux_uniform ms dt T hdt rest'
        (fun c hc => ⟨htemp c (by simp [hc]), hsize c (by simp [hc]),
          hmat c (by simp [hc])⟩)
        (matAt ms cd.material) cd.size _ _ hcdm hcds hf1 hbneg row hrow

/-- Helper: one elimination step. -/
theorem elimRun_cons (prev r : Row) (rest : List Row) :
    elimRun prev (r :: rest) =
      prev :: elimRun ⟨r.b, r.d - r.b / prev.d * prev.a, r.a,
        r.c - r.b / prev.d * prev.c⟩ rest := rfl

/-- Helper: elimination of the final row. -/
theorem elimRun_nil (prev : Row) : elimRun prev [] = [prev] := rfl

/-- Helper: unfolding of back-substitution over a cons. -/
theorem backsub_cons (r : Row) (l : List Row) :
    backsub (r :: l) =
      (match backsub l with
        | [] => [r.c / r.d]
        | x :: _ => (r.c - r.a * x) / r.d :: backsub l) := rfl

/-- Helper: back-substitution of a single row. -/
theorem backsub_single (p : Row) : backsub [p] = [p.c / p.d] := rfl

/-- Helper: division of a multiple of the denominator. -/
theorem div_eq_of_num_eq_mul (x d T : ℚ) (hd : d ≠ 0) (h : x = d * T) :
    x / d = T := by
  rw [h, mul_comm, mul_div_assoc, div_self hd, mul_one]

/-- Helper: the elimination correction `(b / d_prev) * a_prev` is bounded by
`-b` under the diagonal-dominance invariant `1 - a_prev ≤ d_prev` with
non-positive `a_prev`, `b`. -/
theorem pivot_correction_le (pd pa rb : ℚ) (hpa : pa ≤ 0) (hpd : 1 - pa ≤ pd)
    (hrb : rb ≤ 0) : rb / pd * pa ≤ -rb := by
  have hpd0 : 0 < pd := by linarith
  have hnum : 0 ≤ rb * pa := by nlinarith
  have h1 : rb / pd * pa = rb * pa / pd := by ring
  have h2 : rb * pa / pd ≤ rb * pa / (1 - pa) := by
    gcongr
    linarith
  have h3 : rb * pa / (1 - pa) ≤ -rb := by
    rw [div_le_iff₀ (by linarith : (0 : ℚ) < 1 - pa)]
    nlinarith
  linarith

/-- Helper: forward elimination followed by back-substitution returns the
all-`T` solution, given an already-eliminated previous row satisfying the
dominance invariant (`a ≤ 0`, `1 - a ≤ d`, `c = (d + a)·T`) and the
adiabatically folded shape of the remaining rows. -/
theorem elim_uniform (T : ℚ) (rest : List Row) :
    ∀ prev : Row, prev.a ≤ 0 → 1 - prev.a ≤ prev.d →
      prev.c = (prev.d + prev.a) * T → MidsThenLast T rest →
      backsub (elimRun prev rest) = List.replicate (rest.length + 1) T := by
  induction rest with
  | nil =>
    intro prev _ _ _ hmid
    exact absurd hmid (by simp [MidsThenLast])
  | cons r rest' ih =>
    intro prev hpa hpd hpc hmid
    have hpd0 : 0 < prev.d := by linarith
    have hpdne : prev.d ≠ 0 := ne_of_gt hpd0
    have hcancel : r.b / prev.d * prev.d = r.b := div_mul_cancel₀ r.b hpdne
    have hhead : prev.c - prev.a * T = prev.d * T := by linear_combination hpc
    cases rest' with
    | nil =>
      obtain ⟨hrb, hrd, hrc⟩ := hmid
      have hcorr : r.b / prev.d * prev.a ≤ -r.b :=
        pivot_correction_le prev.d prev.a r.b hpa hpd hrb
      have hd1 : (1 : ℚ) ≤ r.d - r.b / prev.d * prev.a := by
        rw [hrd]
        linarith
      have hdne : r.d - r.b / prev.d * prev.a ≠ 0 := by linarith
      have hc' : r.c - r.b / prev.d * prev.c =
          (r.d - r.b / prev.d * prev.a) * T := by
        linear_combination hrc - r.b / prev.d * hpc - T * hrd - T * hcancel
      rw [elimRun_cons, elimRun_nil, backsub_cons, backsub_single]
      dsimp only
      rw [div_eq_of_num_eq_mul _ _ T hdne hc']
      rw [div_eq_of_num_eq_mul _ _ T hpdne hhead]
      rfl
    | cons r2 rest'' =>
      obtain ⟨⟨hra, hrb, hrd, hrc⟩, hmid'⟩ := hmid
      have hcorr : r.b / prev.d * prev.a ≤ -r.b :=
        pivot_correction_le prev.d prev.a r.b hpa hpd hrb
      have hd' : 1 - r.a ≤ r.d - r.b / prev.d * prev.a := by
        rw [hrd]
        linarith
      have hc' : r.c - r.b / prev.d * prev.c =
          (r.d - r.b / prev.d * prev.a + r.a) * T := by
        linear_combination hrc - r.b / prev.d * hpc - T * hrd - T * hcancel
      have hstep := ih ⟨r.b, r.d - r.b / prev.d * prev.a, r.a,
        r.c - r.b / prev.d * prev.c⟩ hra hd' hc' hmid'
      rw [elimRun_cons, backsub_cons, hstep, List.replicate_succ]
      dsimp only
      rw [div_eq_of_num_eq_mul _ _ T hpdne hhead]
      simp [List.replicate_succ]

/-- Helper: folding the adiabatic back side (`rfac2 = 1`, `qdxk = 0`) into the
last row of a list of `RowOk` rows yields the `MidsThenLast` shape. -/
theorem foldLast_adiabatic (T : ℚ) (rows : List Row) (hne : rows ≠ [])
    (h : ∀ r ∈ rows, RowOk T r) : MidsThenLast T (foldLast 1 0 rows) := by
  induction rows with
  | nil => exact absurd rfl hne
  | cons r rs ih =>
    obtain ⟨hra, hrb, hrd, hrc⟩ := h r (List.mem_cons_self r rs)
    cases rs with
    | nil =>
      rw [foldLast]
      refine ⟨hrb, ?_, ?_⟩
      · dsimp only
        rw [hrd]
        ring
      · dsimp only
        rw [hrc]
        ring
    | cons r2 rs' =>
      rw [foldLast]
      have htail := ih (List.cons_ne_nil r2 rs') (fun x hx => h x (List.mem_cons_of_mem r hx))
      cases hfl : foldLast 1 0 (r2 :: rs') with
      | nil =>
        rw [hfl] at htail
        exact absurd htail (by simp [MidsThenLast])
      | cons f fs =>
        rw [hfl] at htail
        exact ⟨⟨hra, hrb, hrd, hrc⟩, htail⟩
      exact fun hcon => List.cons_ne_nil r2 rs' hcon

/-- Helper: the populate loop emits one row per remaining cell. -/
theorem populateAux_length (ms : List Material) (dt : ℚ) (rest : List WallCell) :
    ∀ td matd dxd f1 b cb,
      (populateAux ms dt td matd dxd f1 b cb rest).length = rest.length := by
  induction rest with
  | nil => intro td matd dxd f1 b cb; rfl
  | cons ca rest' ih =>
    intro td matd dxd f1 b cb
    rw [populateAux]
    simp only [List.length_cons, ih]

/-- Helper: the solve matrix has `len - 2` rows. -/
theorem populate_length (we : WallElement) (ms : List Material) (dt : ℚ) :
    (populate_solve_matrix we ms dt).length = we.length - 2 := by
  cases we with
  | nil => rfl
  | cons cb rest =>
    cases rest with
    | nil => rfl
    | cons cd rest' =>
      rw [populate_solve_matrix]
      simp [populateAux_length]

/-- Helper: folding the back boundary preserves the number of rows. -/
theorem foldLast_length (rb qb : ℚ) (rows : List Row) :
    (foldLast rb qb rows).length = rows.length := by
  induction rows with
  | nil => rfl
  | cons r rs ih =>
    cases rs with
    | nil => rfl
    | cons r2 rs' => simpa [foldLast] using ih

/-- Helper: folding both boundaries preserves the number of rows. -/
theorem foldBoundary_length (rf qf rb qb : ℚ) (rows : List Row) :
    (foldBoundary rf qf rb qb rows).length = rows.length := by
  cases rows with
  | nil => rfl
  | cons r rs =>
    cases rs with
    | nil => rfl
    | cons r2 rs' => simp [foldBoundary, foldLast_length]

/-- Helper: the adiabatically folded system of a uniform-temperature matrix is
solved by the all-`T` vector, via the Thomas elimination. -/
theorem backsub_elim_folded (T : ℚ) (rows : List Row) (r0 : Row)
    (rrest : List Row) (hrows : ∀ r ∈ rows, RowOk T r)
    (hfold : foldBoundary 1 0 1 0 rows = r0 :: rrest) :
    backsub (elimRun r0 rrest) = List.replicate (rrest.length + 1) T := by
  cases rows with
  | nil => simp [foldBoundary] at hfold
  | cons r rs =>
    obtain ⟨hra, hrb, hrd, hrc⟩ := hrows r (List.mem_cons_self r rs)
    cases rs with
    | nil =>
      rw [foldBoundary] at hfold
      injection hfold with h0 h1
      subst h0
      subst h1
      rw [elimRun_nil, backsub_single]
      dsimp only
      have hdne : r.d + r.b * 1 + r.a * 1 ≠ 0 := by
        rw [hrd]
        ring_nf
        norm_num
      rw [div_eq_of_num_eq_mul _ _ T hdne (by linear_combination hrc - T * hrd)]
      rfl
    | cons r2 rs' =>
      rw [foldBoundary] at hfold
      case x_1 => exact fun hcon => List.cons_ne_nil r2 rs' hcon
      injection hfold with h0 h1
      subst h0
      subst h1
      refine elim_uniform T _ _ hra ?_ ?_ ?_
      · dsimp only
        rw [hrd]
        linarith
      · dsimp only
        linear_combination hrc - T * hrd
      · refine foldLast_adiabatic T (r2 :: rs') (List.cons_ne_nil r2 rs') ?_
        intro x hx
        exact hrows x (List.mem_cons_of_mem r hx)

/-- Helper: the last element of a replicate, with the replicated value as
default. -/
theorem getLastD_replicate_self (T : ℚ) : ∀ n : ℕ,
    (List.replicate n T).getLastD T = T := by
  intro n
  induction n with
  | zero => rfl
  | succ m ih => rw [List.replicate_succ, List.getLastD_cons, ih]

/-- Helper: re-setting a cell's temperature to its current value is the
identity. -/
theorem cell_temp_eta (c : WallCell) (T : ℚ) (h : c.temperature = T) :
    ({ c with temperature := T } : WallCell) = c := by
  cases c
  cases h
  rfl

/-- Helper: writing the temperatures a list of cells already has is the
identity. -/
theorem writeTemps_same (T : ℚ) (cells : List WallCell)
    (h : ∀ c ∈ cells, c.temperature = T) :
    ∀ n, writeTemps cells (List.replicate n T) = cells := by
  induction cells with
  | nil => intro n; cases n <;> rfl
  | cons c cs ih =>
    intro n
    cases n with
    | zero => rfl
    | succ m =>
      rw [List.replicate_succ, writeTemps,
        cell_temp_eta c T (h c (List.mem_cons_self c cs)),
        ih (fun x hx => h x (List.mem_cons_of_mem c hx)) m]

/-- Helper: setting the last temperature to its current value is the
identity. -/
theorem setLastTemp_same (T : ℚ) (cells : List WallCell)
    (h : ∀ c ∈ cells, c.temperature = T) : setLastTemp T cells = cells := by
  induction cells with
  | nil => rfl
  | cons c cs ih =>
    cases cs with
    | nil =>
      rw [setLastTemp, cell_temp_eta c T (h c (List.mem_cons_self c []))]
    | cons c2 cs' =>
      rw [setLastTemp, ih (fun x hx => h x (List.mem_cons_of_mem c hx))]
      exact fun hcon => List.cons_ne_nil c2 cs' hcon

/-- Helper: one solve pass with the adiabatic closure `(1, 0, 1, 0)` leaves a
uniform-temperature element unchanged (non-negative timestep, positive sizes,
material positivity at `T`). -/
theorem solve_uniform_adiabatic (we : WallElement) (ms : List Material)
    (T dt : ℚ) (hlen : 3 ≤ we.length) (htemp : ∀ c ∈ we, c.temperature = T)
    (hsize : ∀ c ∈ we, 0 < c.size)
    (hmat : ∀ c ∈ we, GoodAt T (matAt ms c.material)) (hdt : 0 ≤ dt) :
    solve_heat_transfer we ms (1, 0, 1, 0) dt = we := by
  have hrows := populate_uniform we ms dt T hdt htemp hsize hmat
  rw [solve_heat_transfer]
  split
  · rfl
  · rename_i r0 rrest hfold
    have hx := backsub_elim_folded T _ r0 rrest hrows hfold
    dsimp only
    rw [hx]
    cases we with
    | nil => simp at hlen
    | cons c0 crest =>
      rw [List.replicate_succ]
      dsimp only
      rw [List.getLastD_cons, getLastD_replicate_self]
      have hx0 : T * 1 + 0 = T := by ring
      rw [hx0, cell_temp_eta c0 T (htemp c0 (List.mem_cons_self c0 crest)),
        ← List.replicate_succ,
        writeTemps_same T crest (fun x hx => htemp x (List.mem_cons_of_mem c0 hx)),
        setLastTemp_same T (c0 :: crest) htemp]

/-- Helper: the boundary closure at `h = ADIABATIC_H` on both sides is
`(1, 0, 1, 0)`. -/
theorem calc_adiabatic (we : WallElement) (ms : List Material) (q : ℚ × ℚ) :
    calc_rfac2_and_qdxk_no_radiation we ms (ADIABATIC_H, ADIABATIC_H) q =
      (1, 0, 1, 0) := by
  simp [calc_rfac2_and_qdxk_no_radiation]

/-- Helper: a cell looked up in range is a member. -/
theorem cellAt_mem (we : WallElement) (i : ℕ) (h : i < we.length) :
    cellAt we i ∈ we := by
  rw [cellAt, List.getD_eq_getElem we default h]
  exact List.getElem_mem h

/-- Helper: `update` on a single element whose `heat_transfer` step is the
identity reports the uniform temperature on both faces. -/
theorem update_single (ms : List Material) (we : WallElement) (h q : ℚ × ℚ)
    (dt T : ℚ) (hht : heat_transfer we ms h q dt = we)
    (htemp : ∀ c ∈ we, c.temperature = T) (hlen : 3 ≤ we.length) (t0 : ℚ × ℚ) :
    update ms [we] dt [h] [q] [t0] = some ([we], [(T, T)]) := by
  rw [update, if_pos (by simp)]
  simp only [List.zip_cons_cons, List.zip_nil_right, List.zipWith_cons_cons,
    List.zipWith_nil_right, List.map_cons, List.map_nil]
  rw [hht]
  have hT0 : (cellAt we 0).temperature = T :=
    htemp _ (cellAt_mem we 0 (by omega))
  have hT1 : (cellAt we 1).temperature = T :=
    htemp _ (cellAt_mem we 1 (by omega))
  have hTl1 : (cellAt we (we.length - 1)).temperature = T :=
    htemp _ (cellAt_mem we (we.length - 1) (by omega))
  have hTl2 : (cellAt we (we.length - 2)).temperature = T :=
    htemp _ (cellAt_mem we (we.length - 2) (by omega))
  rw [reportPair, hT0, hT1, hTl1, hTl2]
  have : (T + T) / 2 = T := by ring
  rw [this]

/-- C2 (amended): a wall element of at least 3 cells, all at one temperature
`T`, with positive cell sizes, adiabatic sentinel boundaries on both sides and
any flux values, is left exactly unchanged by `heat_transfer` — and hence by
the CPU backend's `update`, which then reports `(T, T)` — for every
non-negative `delta_time` and every materials list whose materials reached by
the element's cells have positive density, positive specific heat at `T` and
non-negative conductivity at `T` (the construction-time invariants of the data
model; a negative `delta_time` can zero an elimination pivot and destroy the
invariant, see the counterexample). -/
theorem c2_steady_state (ms : List Material) (we : WallElement) (T : ℚ)
    (q : ℚ × ℚ) (dt : ℚ) (hlen : 3 ≤ we.length)
    (htemp : ∀ c ∈ we, c.temperature = T) (hsize : ∀ c ∈ we, 0 < c.size)
    (hmat : ∀ c ∈ we, GoodAt T (matAt ms c.material)) (hdt : 0 ≤ dt) :
    heat_transfer we ms (ADIABATIC_H, ADIABATIC_H) q dt = we ∧
    ∀ t0 : ℚ × ℚ,
      update ms [we] dt [(ADIABATIC_H, ADIABATIC_H)] [q] [t0] =
        some ([we], [(T, T)]) := by
  have hht : heat_transfer we ms (ADIABATIC_H, ADIABATIC_H) q dt = we := by
    rw [heat_transfer]
    rw [max_delta_uniform we ms dt T htemp, repeats_zero]
    have hdt1 : dt / ((1 : ℕ) : ℚ) = dt := by norm_num
    rw [hdt1]
    simp only [htIter]
    rw [calc_adiabatic, solve_uniform_adiabatic we ms T dt hlen htemp hsize hmat hdt]
  exact ⟨hht, update_single ms we (ADIABATIC_H, ADIABATIC_H) q dt T hht htemp hlen⟩

/-- C2 counterexample: the claim quantifies over every `delta_time`; at
`delta_time = -1` on a four-cell uniform element of a perfectly valid material
(density 1, specific heat 1/2, conductivity 1, all sizes 1, all cells at 20),
the first elimination pivot is exactly 0.  The `f32` code divides by that zero
pivot and propagates infinities into NaN temperatures, so the cells do not
stay at 20; the exact-arithmetic model likewise leaves the steady state (its
junk-division convention yields 0-valued temperatures). -/
theorem c2_counterexample :
    ¬ (∀ c ∈ heat_transfer uniformWe4 [unitMat] (ADIABATIC_H, ADIABATIC_H)
        (0, 0) (-1), c.temperature = 20) := by
  norm_num [heat_transfer, max_delta_temperature, maxDeltaAux, repeats, htIter,
    solve_heat_transfer, populate_solve_matrix, populateAux, foldBoundary,
    foldLast, elimRun, backsub, writeTemps, setLastTemp,
    calc_rfac2_and_qdxk_no_radiation, rampCalc, rampCalcAux, cellAt, matAt,
    uniformWe4, unitMat, ADIABATIC_H, CONST_TEMP_H, MAX_DELTA_TEMPERATURE,
    MAX_TIME_SUBDIVISIONS, SIGMA]

/-- C2 witness: the amended steady-state invariant on a concrete three-cell
uniform element. -/
theorem c2_witness :
    heat_transfer uniformWe3 [unitMat] (ADIABATIC_H, ADIABATIC_H) (7, -3) 1 =
      uniformWe3 ∧
    update [unitMat] [uniformWe3] 1 [(ADIABATIC_H, ADIABATIC_H)] [(7, -3)]
      [(0, 0)] = some ([uniformWe3], [(20, 20)]) := by
  have hmem : ∀ c ∈ uniformWe3, c = (⟨1, 0, 20⟩ : WallCell) := by
    intro c hc
    rcases List.mem_cons.mp hc with rfl | hc'
    · rfl
    · rcases List.mem_cons.mp hc' with rfl | hc''
      · rfl
      · rcases List.mem_cons.mp hc'' with rfl | hc'''
        · rfl
        · simp at hc'''
  have hres := c2_steady_state [unitMat] uniformWe3 20 (7, -3) 1
    (by norm_num [uniformWe3])
    (fun c hc => by rw [hmem c hc])
    (fun c hc => by rw [hmem c hc]; norm_num)
    (fun c hc => by
      rw [hmem c hc]
      norm_num [GoodAt, matAt, unitMat, rampCalc])
    (by norm_num)
  exact ⟨hres.1, hres.2 (0, 0)⟩

/-- Helper: a three-cell element at uniform temperature `T` with the
constant-temperature sentinel on both sides and prescribed boundary value `T`
is left unchanged by `heat_transfer` (positive sizes, material positivity,
non-negative timestep). -/
theorem heat_transfer3_const_temp (ms : List Material) (c0 c1 c2 : WallCell)
    (T dt : ℚ) (h0 : c0.temperature = T) (h1 : c1.temperature = T)
    (h2 : c2.temperature = T) (hs0 : 0 < c0.size) (hs1 : 0 < c1.size)
    (hs2 : 0 < c2.size) (hm0 : GoodAt T (matAt ms c0.material))
    (hm1 : GoodAt T (matAt ms c1.material))
    (hm2 : GoodAt T (matAt ms c2.material)) (hdt : 0 ≤ dt) :
    heat_transfer [c0, c1, c2] ms (CONST_TEMP_H, CONST_TEMP_H) (T, T) dt =
      [c0, c1, c2] := by
  have htemp : ∀ c ∈ [c0, c1, c2], c.temperature = T := by
    intro c hc
    rcases List.mem_cons.mp hc with rfl | hc'
    · exact h0
    · rcases List.mem_cons.mp hc' with rfl | hc''
      · exact h1
      · rcases List.mem_cons.mp hc'' with rfl | hc'''
        · exact h2
        · simp at hc'''
  have hsize : ∀ c ∈ [c0, c1, c2], 0 < c.size := by
    intro c hc
    rcases List.mem_cons.mp hc with rfl | hc'
    · exact hs0
    · rcases List.mem_cons.mp hc' with rfl | hc''
      · exact hs1
      · rcases List.mem_cons.mp hc'' with rfl | hc'''
        · exact hs2
        · simp at hc'''
  have hmat : ∀ c ∈ [c0, c1, c2], GoodAt T (matAt ms c.material) := by
    intro c hc
    rcases List.mem_cons.mp hc with rfl | hc'
    · exact hm0
    · rcases List.mem_cons.mp hc' with rfl | hc''
      · exact hm1
      · rcases List.mem_cons.mp hc'' with rfl | hc'''
        · exact hm2
        · simp at hc'''
  have hcalc : calc_rfac2_and_qdxk_no_radiation [c0, c1, c2] ms
      (CONST_TEMP_H, CONST_TEMP_H) (T, T) = (-1, 2 * T, -1, 2 * T) := by
    norm_num [calc_rfac2_and_qdxk_no_radiation, ADIABATIC_H, CONST_TEMP_H]
  obtain ⟨r, hr⟩ : ∃ r, populate_solve_matrix [c0, c1, c2] ms dt = [r] :=
    List.length_eq_one.mp (populate_length [c0, c1, c2] ms dt)
  obtain ⟨hra, hrb, hrd, hrc⟩ : RowOk T r :=
    populate_uniform [c0, c1, c2] ms dt T hdt htemp hsize hmat r
      (by rw [hr]; exact List.mem_cons_self r [])
  have hfold : foldBoundary (-1) (2 * T) (-1) (2 * T)
      (populate_solve_matrix [c0, c1, c2] ms dt) =
      [⟨r.b, r.d + r.b * (-1) + r.a * (-1), r.a,
        r.c - r.b * (2 * T) - r.a * (2 * T)⟩] := by
    rw [hr, foldBoundary]
  have hdge : (1 : ℚ) ≤ r.d + r.b * (-1) + r.a * (-1) := by
    rw [hrd]
    linarith
  have hdne : r.d + r.b * (-1) + r.a * (-1) ≠ 0 := by linarith
  have hc' : r.c - r.b * (2 * T) - r.a * (2 * T) =
      (r.d + r.b * (-1) + r.a * (-1)) * T := by
    linear_combination hrc - T * hrd
  rw [heat_transfer, max_delta_uniform _ ms dt T htemp, repeats_zero]
  have hdt1 : dt / ((1 : ℕ) : ℚ) = dt := by norm_num
  rw [hdt1]
  simp only [htIter]
  rw [solve_heat_transfer, hcalc]
  rw [hfold]
  dsimp only
  rw [elimRun_nil, backsub_single]
  dsimp only
  rw [div_eq_of_num_eq_mul _ _ T hdne hc']
  have hLD : ([T] : List ℚ).getLastD 0 = T := rfl
  rw [hLD]
  have hTT : T * (-1) + 2 * T = T := by ring
  rw [hTT, cell_temp_eta c0 T h0, writeTemps, writeTemps,
    cell_temp_eta c1 T h1]
  rw [setLastTemp_same T _ htemp]

/-- C3: the §8 concrete scenario — one element of 1 interior cell and 2
boundary half-cells (any positive sizes), the single material with density
7850, specific heat 439.8, conductivity 53.3, emissivity 0.79, `delta_time`
1.0, the constant-temperature sentinel with q = 20.0 on both sides, and all
cells at 20.0 — is left exactly at 20.0 by `heat_transfer`; `update` reports
(20.0, 20.0). -/
theorem c3_concrete_scenario (sf si sb : ℚ) (hf : 0 < sf) (hi : 0 < si)
    (hb : 0 < sb) :
    heat_transfer [⟨sf, 0, 20⟩, ⟨si, 0, 20⟩, ⟨sb, 0, 20⟩] [steel]
        (CONST_TEMP_H, CONST_TEMP_H) (20, 20) 1 =
      [⟨sf, 0, 20⟩, ⟨si, 0, 20⟩, ⟨sb, 0, 20⟩] ∧
    ∀ t0 : ℚ × ℚ,
      update [steel] [[⟨sf, 0, 20⟩, ⟨si, 0, 20⟩, ⟨sb, 0, 20⟩]] 1
          [(CONST_TEMP_H, CONST_TEMP_H)] [(20, 20)] [t0] =
        some ([[⟨sf, 0, 20⟩, ⟨si, 0, 20⟩, ⟨sb, 0, 20⟩]], [(20, 20)]) := by
  have hgood : GoodAt 20 (matAt [steel] 0) := by
    norm_num [GoodAt, matAt, steel, rampCalc]
  have hht := heat_transfer3_const_temp [steel] ⟨sf, 0, 20⟩ ⟨si, 0, 20⟩
    ⟨sb, 0, 20⟩ 20 1 rfl rfl rfl hf hi hb hgood hgood hgood (by norm_num)
  refine ⟨hht, ?_⟩
  intro t0
  refine update_single [steel] _ (CONST_TEMP_H, CONST_TEMP_H) (20, 20) 1 20
    hht ?_ (by norm_num) t0
  intro c hc
  rcases List.mem_cons.mp hc with rfl | hc'
  · rfl
  · rcases List.mem_cons.mp hc' with rfl | hc''
    · rfl
    · rcases List.mem_cons.mp hc'' with rfl | hc'''
      · rfl
      · simp at hc'''

/-- C3 witness: the scenario at concrete half-cell sizes 0.005 / 0.01 /
0.005. -/
theorem c3_witness :
    (0 : ℚ) < 1 / 200 ∧
    heat_transfer [⟨1 / 200, 0, 20⟩, ⟨1 / 100, 0, 20⟩, ⟨1 / 200, 0, 20⟩]
        [steel] (CONST_TEMP_H, CONST_TEMP_H) (20, 20) 1 =
      [⟨1 / 200, 0, 20⟩, ⟨1 / 100, 0, 20⟩, ⟨1 / 200, 0, 20⟩] :=
  ⟨by norm_num,
    (c3_concrete_scenario (1 / 200) (1 / 100) (1 / 200) (by norm_num)
      (by norm_num) (by norm_num)).1⟩

/-- Helper: elimination emits one row per input row plus the seed. -/
theorem elimRun_length (rest : List Row) :
    ∀ prev, (elimRun prev rest).length = rest.length + 1 := by
  induction rest with
  | nil => intro prev; rfl
  | cons r rest' ih =>
    intro prev
    rw [elimRun_cons]
    simp [ih]

/-- Helper: back-substitution returns one unknown per row. -/
theorem backsub_length (l : List Row) : (backsub l).length = l.length := by
  induction l with
  | nil => rfl
  | cons a l ih =>
    rw [backsub_cons]
    cases h : backsub l with
    | nil =>
      rw [h] at ih
      simp at ih
      simp [← ih]
    | cons x xs =>
      rw [h] at ih
      simp only [List.length_cons] at ih ⊢
      omega

/-- Helper: the interior write-back preserves the cell count. -/
theorem writeTemps_length (cells : List WallCell) :
    ∀ xs, (writeTemps cells xs).length = cells.length := by
  induction cells with
  | nil => intro xs; cases xs <;> rfl
  | cons c cs ih =>
    intro xs
    cases xs with
    | nil => rfl
    | cons x xs' => simp [writeTemps, ih]

/-- Helper: setting the last temperature preserves the cell count. -/
theorem setLastTemp_length (t : ℚ) (cells : List WallCell) :
    (setLastTemp t cells).length = cells.length := by
  induction cells with
  | nil => rfl
  | cons c cs ih =>
    cases cs with
    | nil => rfl
    | cons c2 cs' => simpa [setLastTemp] using ih

/-- Helper: the interior write-back stores the `i`-th unknown in the `i`-th
written cell. -/
theorem writeTemps_getD (cells : List WallCell) :
    ∀ (xs : List ℚ) (i : ℕ), i < xs.length → i < cells.length →
      ((writeTemps cells xs).getD i default).temperature = xs.getD i 0 := by
  induction cells with
  | nil => intro xs i _ hc; simp at hc
  | cons c cs ih =>
    intro xs i hx hc
    cases xs with
    | nil => simp at hx
    | cons x xs' =>
      cases i with
      | zero => rw [writeTemps]; simp
      | succ j =>
        rw [writeTemps, List.getD_cons_succ, List.getD_cons_succ]
        exact ih xs' j (by simpa using hx) (by simpa using hc)

/-- Helper: cells strictly before the last one are untouched by the last-cell
write. -/
theorem setLastTemp_getD_lt (t : ℚ) (cells : List WallCell) :
    ∀ i : ℕ, i + 1 < cells.length →
      (setLastTemp t cells).getD i default = cells.getD i default := by
  induction cells with
  | nil => intro i hi; simp at hi
  | cons c cs ih =>
    intro i hi
    cases cs with
    | nil => simp at hi
    | cons c2 cs' =>
      rw [setLastTemp]
      case x_1 => exact fun hcon => List.cons_ne_nil c2 cs' hcon
      cases i with
      | zero => rfl
      | succ j =>
        rw [List.getD_cons_succ, List.getD_cons_succ]
        exact ih j (by simpa using hi)

/-- Helper: the last cell receives exactly the written temperature. -/
theorem setLastTemp_getD_last (t : ℚ) (cells : List WallCell)
    (hne : cells ≠ []) :
    ((setLastTemp t cells).getD (cells.length - 1) default).temperature = t := by
  induction cells with
  | nil => exact absurd rfl hne
  | cons c cs ih =>
    cases cs with
    | nil => rfl
    | cons c2 cs' =>
      rw [setLastTemp]
      case x_1 => exact fun hcon => List.cons_ne_nil c2 cs' hcon
      have : (c :: c2 :: cs').length - 1 = cs'.length + 1 := by simp
      rw [this, List.getD_cons_succ]
      have h2 : (c2 :: cs').length - 1 = cs'.length := by simp
      have := ih (List.cons_ne_nil c2 cs')
      rw [h2] at this
      exact this

/-- Helper: `getLastD` as an in-range `getD`. -/
theorem getLastD_eq_getD (l : List ℚ) :
    ∀ d, l ≠ [] → l.getLastD d = l.getD (l.length - 1) 0 := by
  induction l with
  | nil => intro d h; exact absurd rfl h
  | cons x rest ih =>
    intro d _
    cases rest with
    | nil => rfl
    | cons y rest' =>
      rw [List.getLastD_cons, ih x (List.cons_ne_nil y rest')]
      have : (x :: y :: rest').length - 1 = rest'.length + 1 := by simp
      rw [this, List.getD_cons_succ]
      have h2 : (y :: rest').length - 1 = rest'.length := by simp
      rw [h2]

/-- Helper: folding the back boundary rewrites exactly the final row. -/
theorem foldLast_append (rb qb : ℚ) (mid : List Row) (rl : Row) :
    foldLast rb qb (mid ++ [rl]) =
      mid ++ [⟨rl.b, rl.d + rl.a * rb, rl.a, rl.c - rl.a * qb⟩] := by
  induction mid with
  | nil => rfl
  | cons m mid' ih =>
    cases hm : mid' ++ [rl] with
    | nil => exact absurd hm (by simp)
    | cons z zs =>
      rw [List.cons_append, hm, foldLast, ← hm, ih]
      rfl
      exact fun hcon => List.cons_ne_nil z zs hcon

/-- Helper: when every elimination pivot is non-zero, forward elimination
followed by back-substitution produces unknowns satisfying the tridiagonal
system headed by the (already eliminated) first row. -/
theorem elim_solves (rest : List Row) : ∀ prev : Row,
    (∀ r ∈ elimRun prev rest, r.d ≠ 0) →
    SolvesTridiag (prev :: rest) (backsub (elimRun prev rest)) := by
  induction rest with
  | nil =>
    intro prev hpiv
    have hd : prev.d ≠ 0 := hpiv prev (by
      rw [elimRun_nil]
      exact List.mem_cons_self prev [])
    rw [elimRun_nil, backsub_single]
    simp only [SolvesTridiag, SolvesTail]
    rw [mul_comm, div_mul_cancel₀ _ hd]
    trivial
  | cons r rest' ih =>
    intro prev hpiv
    have hd : prev.d ≠ 0 := hpiv prev (by
      rw [elimRun_cons]
      exact List.mem_cons_self _ _)
    have hpiv' : ∀ x ∈ elimRun ⟨r.b, r.d - r.b / prev.d * prev.a, r.a,
        r.c - r.b / prev.d * prev.c⟩ rest', x.d ≠ 0 := by
      intro x hx
      refine hpiv x ?_
      rw [elimRun_cons]
      exact List.mem_cons_of_mem _ hx
    have hIH := ih _ hpiv'
    obtain ⟨y, ys', hys⟩ : ∃ y ys',
        backsub (elimRun ⟨r.b, r.d - r.b / prev.d * prev.a, r.a,
          r.c - r.b / prev.d * prev.c⟩ rest') = y :: ys' := by
      cases hcase : backsub (elimRun ⟨r.b, r.d - r.b / prev.d * prev.a, r.a,
          r.c - r.b / prev.d * prev.c⟩ rest') with
      | nil =>
        have := backsub_length (elimRun ⟨r.b, r.d - r.b / prev.d * prev.a,
          r.a, r.c - r.b / prev.d * prev.c⟩ rest')
        rw [hcase, elimRun_length] at this
        simp at this
      | cons y ys' => exact ⟨y, ys', rfl⟩
    rw [elimRun_cons, backsub_cons, hys]
    rw [hys] at hIH
    dsimp only
    have hcancel : r.b / prev.d * prev.d = r.b := div_mul_cancel₀ r.b hd
    have hx : prev.d * ((prev.c - prev.a * y) / prev.d) + prev.a * y =
        prev.c := by
      rw [mul_comm, div_mul_cancel₀ _ hd]
      ring
    simp only [SolvesTridiag, SolvesTail] at hIH ⊢
    obtain ⟨hhead, htail⟩ := hIH
    refine ⟨hx, ?_, htail⟩
    cases ys' with
    | nil =>
      dsimp only at hhead ⊢
      linear_combination (r.b / prev.d) * hx + hhead -
        ((prev.c - prev.a * y) / prev.d) * hcancel
    | cons y2 ys'' =>
      dsimp only at hhead ⊢
      linear_combination (r.b / prev.d) * hx + hhead -
        ((prev.c - prev.a * y) / prev.d) * hcancel


/-- Helper: after one solve pass the two boundary half-cells hold
`rfac2 * adjacent_interior + qdxk` for their respective sides. -/
theorem solve_writeback (we : WallElement) (ms : List Material)
    (rf qf rb qb dt : ℚ) (hlen : 3 ≤ we.length) :
    (cellAt (solve_heat_transfer we ms (rf, qf, rb, qb) dt) 0).temperature =
      rf * (cellAt (solve_heat_transfer we ms (rf, qf, rb, qb) dt) 1).temperature
        + qf ∧
    (cellAt (solve_heat_transfer we ms (rf, qf, rb, qb) dt)
        (we.length - 1)).temperature =
      rb * (cellAt (solve_heat_transfer we ms (rf, qf, rb, qb) dt)
        (we.length - 2)).temperature + qb := by
  have hplen : (populate_solve_matrix we ms dt).length = we.length - 2 :=
    populate_length we ms dt
  rw [solve_heat_transfer]
  split
  · rename_i hfold
    exfalso
    have := foldBoundary_length rf qf rb qb (populate_solve_matrix we ms dt)
    rw [hfold, hplen] at this
    simp at this
    omega
  · rename_i r0 rrest hfold
    have hxslen : (backsub (elimRun r0 rrest)).length = we.length - 2 := by
      rw [backsub_length, elimRun_length]
      have := foldBoundary_length rf qf rb qb (populate_solve_matrix we ms dt)
      rw [hfold, hplen] at this
      simp only [List.length_cons] at this
      omega
    obtain ⟨c0, crest, hwe⟩ : ∃ c0 crest, we = c0 :: crest := by
      cases we with
      | nil => simp at hlen
      | cons a l => exact ⟨a, l, rfl⟩
    obtain ⟨x0, xtail, hxs⟩ : ∃ x0 xtail,
        backsub (elimRun r0 rrest) = x0 :: xtail := by
      cases hcase : backsub (elimRun r0 rrest) with
      | nil =>
        rw [hcase] at hxslen
        simp at hxslen
        omega
      | cons a l => exact ⟨a, l, rfl⟩
    subst hwe
    rw [hxs] at hxslen ⊢
    dsimp only
    simp only [List.length_cons] at hlen hxslen
    have hcrest : 2 ≤ crest.length := by omega
    have hinlen : ({ c0 with temperature := x0 * rf + qf } ::
        writeTemps crest (x0 :: xtail)).length = crest.length + 1 := by
      simp only [List.length_cons, writeTemps_length]
    constructor
    · rw [cellAt, cellAt]
      rw [setLastTemp_getD_lt _ _ 0 (by rw [hinlen]; omega)]
      rw [setLastTemp_getD_lt _ _ 1 (by rw [hinlen]; omega)]
      rw [List.getD_cons_zero]
      have h1 : ({ c0 with temperature := x0 * rf + qf } ::
          writeTemps crest (x0 :: xtail)).getD 1 default =
          (writeTemps crest (x0 :: xtail)).getD 0 default :=
        List.getD_cons_succ
      rw [h1]
      have h2 : ((writeTemps crest (x0 :: xtail)).getD 0 default).temperature
          = (x0 :: xtail).getD 0 0 :=
        writeTemps_getD crest (x0 :: xtail) 0 (by simp) (by omega)
      rw [h2, List.getD_cons_zero]
      dsimp only
      ring
    · rw [cellAt, cellAt]
      have hL1 : (c0 :: crest).length - 1 = crest.length := by simp
      have hL2 : (c0 :: crest).length - 2 = crest.length - 1 := by
        simp only [List.length_cons]
        omega
      rw [hL1, hL2]
      have hlast : crest.length = ({ c0 with temperature := x0 * rf + qf } ::
          writeTemps crest (x0 :: xtail)).length - 1 := by
        rw [hinlen]
        omega
      rw [hlast, setLastTemp_getD_last _ _ (List.cons_ne_nil _ _), ← hlast]
      rw [setLastTemp_getD_lt _ _ (crest.length - 1) (by rw [hinlen]; omega)]
      have hidx : crest.length - 1 = (crest.length - 2) + 1 := by omega
      rw [hidx]
      have h3 : ({ c0 with temperature := x0 * rf + qf } ::
          writeTemps crest (x0 :: xtail)).getD ((crest.length - 2) + 1) default =
          (writeTemps crest (x0 :: xtail)).getD (crest.length - 2) default :=
        List.getD_cons_succ
      rw [h3]
      have h4 : ((writeTemps crest (x0 :: xtail)).getD (crest.length - 2)
          default).temperature = (x0 :: xtail).getD (crest.length - 2) 0 :=
        writeTemps_getD crest (x0 :: xtail) (crest.length - 2)
          (by simp only [List.length_cons]; omega) (by omega)
      rw [h4]
      have h5 : (x0 :: xtail).getLastD 0 =
          (x0 :: xtail).getD (crest.length - 2) 0 := by
        rw [getLastD_eq_getD (x0 :: xtail) 0 (List.cons_ne_nil x0 xtail)]
        have : (x0 :: xtail).length - 1 = crest.length - 2 := by
          simp only [List.length_cons]
          omega
        rw [this]
      rw [h5]
      ring

/-- C7: in the per-element solve, the boundary closure is folded only into the
first and last interior equations (`rfac2` scaled by the off-diagonal
coefficient added into the diagonal, `qdxk` scaled the same way subtracted
from the right-hand side; middle rows untouched; for a single interior cell
both sides fold into the one row); the folded system is solved exactly by the
Thomas forward elimination and back-substitution whenever every elimination
pivot is non-zero; and the two boundary half-cells are afterwards recomputed
as `rfac2 * adjacent_interior + qdxk` on each side. -/
theorem c7_thomas_solver (ms : List Material) (we : WallElement)
    (rf qf rb qb dt : ℚ) (hlen : 3 ≤ we.length) :
    (∀ r : Row, populate_solve_matrix we ms dt = [r] →
      foldBoundary rf qf rb qb (populate_solve_matrix we ms dt) =
        [⟨r.b, r.d + r.b * rf + r.a * rb, r.a, r.c - r.b * qf - r.a * qb⟩]) ∧
    (∀ (r0 : Row) (mid : List Row) (rl : Row),
      populate_solve_matrix we ms dt = r0 :: (mid ++ [rl]) →
      foldBoundary rf qf rb qb (populate_solve_matrix we ms dt) =
        ⟨r0.b, r0.d + r0.b * rf, r0.a, r0.c - r0.b * qf⟩ ::
          (mid ++ [⟨rl.b, rl.d + rl.a * rb, rl.a, rl.c - rl.a * qb⟩])) ∧
    (∀ (r0 : Row) (rrest : List Row),
      foldBoundary rf qf rb qb (populate_solve_matrix we ms dt) = r0 :: rrest →
      (∀ r ∈ elimRun r0 rrest, r.d ≠ 0) →
      SolvesTridiag (r0 :: rrest) (backsub (elimRun r0 rrest))) ∧
    ((cellAt (solve_heat_transfer we ms (rf, qf, rb, qb) dt) 0).temperature =
      rf * (cellAt (solve_heat_transfer we ms (rf, qf, rb, qb) dt)
        1).temperature + qf ∧
    (cellAt (solve_heat_transfer we ms (rf, qf, rb, qb) dt)
        (we.length - 1)).temperature =
      rb * (cellAt (solve_heat_transfer we ms (rf, qf, rb, qb) dt)
        (we.length - 2)).temperature + qb) := by
  refine ⟨?_, ?_, ?_, solve_writeback we ms rf qf rb qb dt hlen⟩
  · intro r hr
    rw [hr]
    rfl
  · intro r0 mid rl hr
    rw [hr, foldBoundary]
    · rw [foldLast_append]
    · exact fun hcon => by simp at hcon
  · intro r0 rrest _ hpiv
    exact elim_solves rrest r0 hpiv

/-- C7 witness: the write-back relations on a concrete three-cell element with
the adiabatic closure values. -/
theorem c7_witness :
    (cellAt (solve_heat_transfer uniformWe3 [unitMat] (1, 0, 1, 0) 1)
        0).temperature =
      1 * (cellAt (solve_heat_transfer uniformWe3 [unitMat] (1, 0, 1, 0) 1)
        1).temperature + 0 ∧
    (cellAt (solve_heat_transfer uniformWe3 [unitMat] (1, 0, 1, 0) 1)
        (uniformWe3.length - 1)).temperature =
      1 * (cellAt (solve_heat_transfer uniformWe3 [unitMat] (1, 0, 1, 0) 1)
        (uniformWe3.length - 2)).temperature + 0 :=
  (c7_thomas_solver [unitMat] uniformWe3 1 0 1 0 1
    (by norm_num [uniformWe3])).2.2.2
